import Mathlib

/-!
Verification of the Kuwait IGCSE Portal webhook service (api/webhook.py, api/wa.py).

This file shallowly embeds the string normalization, subject/board
canonicalization, teacher matching, callback-data codecs, signed-token
machinery and the relevant webhook handler branches of the source, and
proves the frozen claims about them.

Modeling conventions:
- Python strings are Lean `String`s; character-level work is done on
  `List Char`.  Case conversion and character classes are modeled at the
  ASCII level, which covers all data appearing in the source tables.
- Python byte strings are `List Nat` with each entry < 256.
- Fallible Python code (exceptions caught by the handlers) is modeled with
  `Option`.
-/

namespace Portal

/-! ## ASCII character helpers -/

/-- Whitespace characters matched by the regex class from the source
(ASCII fragment of Python's regex class for whitespace). -/
def isPyWs (c : Char) : Bool :=
  c = ' ' || c = '\t' || c = '\n' || c = '\x0d' || c = '\x0b' || c = '\x0c'

/-- ASCII lowercase conversion, modeling Python str.lower on the ASCII data
used throughout the source. -/
def lowerChar (c : Char) : Char :=
  if 'A' ≤ c && c ≤ 'Z' then Char.ofNat (c.toNat + 32) else c

/-- ASCII uppercase conversion. -/
def upperChar (c : Char) : Char :=
  if 'a' ≤ c && c ≤ 'z' then Char.ofNat (c.toNat - 32) else c

/-- Word characters for the regex word-boundary assertion: Python's word
class restricted to ASCII, which covers the cleaned inputs fed to it. -/
def isWordChar (c : Char) : Bool :=
  ('a' ≤ c && c ≤ 'z') || ('A' ≤ c && c ≤ 'Z') || ('0' ≤ c && c ≤ '9') || c = '_'

/-- ASCII decimal digit test. -/
def isDigitChar (c : Char) : Bool :=
  '0' ≤ c && c ≤ '9'

/-! ## Whitespace collapsing, stripping, lowering: `_norm` from the source -/

/-- Collapse whitespace runs: one space is emitted for the first character
of a run, the following run characters are dropped (the flag records
whether the previous character was whitespace). -/
def collapseWsAux (prevWs : Bool) : List Char → List Char
  | [] => []
  | c :: rest =>
    if isPyWs c then
      if prevWs then collapseWsAux true rest
      else ' ' :: collapseWsAux true rest
    else c :: collapseWsAux false rest

/-- Replace every maximal run of whitespace by a single space, modeling the
regex substitution of whitespace-runs by one space in `_norm`. -/
def collapseWs (l : List Char) : List Char :=
  collapseWsAux false l

/-- Python str.strip: drop whitespace at both ends. -/
def stripWs (l : List Char) : List Char :=
  ((l.dropWhile isPyWs).reverse.dropWhile isPyWs).reverse

/-- `_norm` from the source: collapse whitespace runs to single spaces,
strip, lowercase. -/
def pyNorm (s : String) : String :=
  String.mk ((stripWs (collapseWs s.toList)).map lowerChar)

/-- Python str.lower on a whole string (ASCII model). -/
def pyLower (s : String) : String :=
  String.mk (s.toList.map lowerChar)

/-! ## The cleaned text fed to the subject table: `t_clean` -/

/-- Characters kept by the cleaning substitution in `canonical_subject`
(the class of lowercase letters, digits, whitespace and a few symbols). -/
def isCleanKeep (c : Char) : Bool :=
  ('a' ≤ c && c ≤ 'z') || ('0' ≤ c && c ≤ '9') || isPyWs c ||
    c = '&' || c = '(' || c = ')' || c = '/' || c = '-'

/-- Replace runs of disallowed characters by single spaces (the flag
records whether the previous character was disallowed). -/
def cleanSubAux (prevBad : Bool) : List Char → List Char
  | [] => []
  | c :: rest =>
    if isCleanKeep c then c :: cleanSubAux false rest
    else if prevBad then cleanSubAux true rest
    else ' ' :: cleanSubAux true rest

/-- Replace every maximal run of disallowed characters by a single space,
modeling the first substitution building `t_clean`. -/
def cleanSub (l : List Char) : List Char :=
  cleanSubAux false l

/-- `t_clean` from `canonical_subject`: clean the (already normalized)
text, then collapse whitespace runs again and strip. -/
def cleanText (t : String) : String :=
  String.mk (stripWs (collapseWs (cleanSub t.toList)))

/-! ## Word-boundary literal search

The source tests aliases with a regex of the escaped alias between two
word-boundary assertions.  The pattern is a literal, so the search is: the
alias occurs at some position, and at both ends of the occurrence the
word-ness of the adjacent characters differs (a string edge counts as
non-word). -/

/-- Word-ness of an optional character; the absent character (string edge)
counts as non-word. -/
def wordOpt : Option Char → Bool
  | some c => isWordChar c
  | none => false

/-- Match the alias at the current position and check the trailing word
boundary; `prev` is the character just before the not-yet-matched rest. -/
def matchCore (prev : Option Char) : List Char → List Char → Bool
  | [], rest => wordOpt prev != wordOpt rest.head?
  | _ :: _, [] => false
  | a :: as, c :: rest => a = c && matchCore (some c) as rest

/-- Match the alias at the current position, checking the leading word
boundary first. -/
def matchHere (prev : Option Char) (al tc : List Char) : Bool :=
  match al with
  | [] => matchCore prev [] tc
  | a :: _ => (wordOpt prev != isWordChar a) && matchCore prev al tc

/-- Scan every position of the text for a boundary-delimited occurrence of
the alias, modeling the regex search in `canonical_subject`. -/
def wordSearchAux (al : List Char) (prev : Option Char) : List Char → Bool
  | [] => matchHere prev al []
  | c :: rest => matchHere prev al (c :: rest) || wordSearchAux al (some c) rest

/-- Whole-word occurrence of the literal `al` inside `tc`. -/
def wordSearch (al tc : List Char) : Bool :=
  wordSearchAux al none tc

/-! ## Subject dictionary and canonicalization -/

/-- VALID_SUBJECTS from the source, in declaration order. -/
def VALID_SUBJECTS : List (String × List String) := [
  ("math (core)", ["math (core)", "mathematics (core)", "maths (core)",
    "additional math (core)", "further math (core)", "igcse mathematics (core)"]),
  ("math (as/a level)", ["math (as/a level)", "mathematics (as/a level)", "maths (as/a level)",
    "additional math (as/a level)", "further math (as/a level)", "igcse mathematics (as/a level)"]),
  ("physics (core)", ["physics (core)", "phys (core)"]),
  ("physics (as/a level)", ["physics (as/a level)", "phys (as/a level)"]),
  ("chemistry (core)", ["chemistry (core)", "chem (core)"]),
  ("chemistry (as/a level)", ["chemistry (as/a level)", "chem (as/a level)"]),
  ("biology (core)", ["biology (core)", "bio (core)"]),
  ("biology (as/a level)", ["biology (as/a level)", "bio (as/a level)"]),
  ("english language", ["english", "english language", "esl", "first language english",
    "second language english", "english sl"]),
  ("english literature", ["english literature", "literature", "english fl"]),
  ("business (core)", ["business (core)", "business studies (core)"]),
  ("business (as/a level)", ["business (as/a level)", "business studies (as/a level)"]),
  ("economics (core)", ["economics (core)", "econ (core)"]),
  ("economics (as/a level)", ["economics (as/a level)", "econ (as/a level)"]),
  ("psychology (as/a level)", ["psychology (as/a level)", "psy (as/a level)"]),
  ("accounting", ["accounting", "accounts"]),
  ("geography", ["geography", "geo"]),
  ("history", ["history"]),
  ("arabic", ["arabic", "arabic first language", "arabic foreign language"]),
  ("french", ["french"]),
  ("german", ["german"]),
  ("spanish", ["spanish"]),
  ("sociology", ["sociology"]),
  ("humanities & social sciences", ["humanities", "social sciences"]),
  ("combined science", ["combined science", "double award science", "coordinated science"]),
  ("environmental management", ["environmental management", "em"]),
  ("physical education", ["pe", "physical education"]),
  ("travel & tourism", ["travel & tourism", "travel", "tourism"]),
  ("computer science", ["computer science", "cs"]),
  ("ict", ["ict", "information and communication technology"])]

/-- Python str.title (ASCII model): uppercase a letter that does not follow
a letter, lowercase the other letters, leave the rest. -/
def titleAux : Bool → List Char → List Char
  | _, [] => []
  | prevAlpha, c :: rest =>
    if ('a' ≤ c && c ≤ 'z') || ('A' ≤ c && c ≤ 'Z') then
      (if prevAlpha then lowerChar c else upperChar c) :: titleAux true rest
    else c :: titleAux false rest

/-- Python str.title on a whole string. -/
def pyTitle (s : String) : String :=
  String.mk (titleAux false s.toList)

/-- `_nice_subject_name` from the source: a small table of special
casings, falling back to title case. -/
def niceSubjectName (key : String) : String :=
  let nice : List (String × String) := [
    ("ict", "ICT"),
    ("cs", "Computer Science"),
    ("pe", "Physical Education"),
    ("english language", "English Language"),
    ("english literature", "English Literature")]
  (nice.lookup key).getD (pyTitle key)

/-- One step of the scan over VALID_SUBJECTS: exact normalized match of the
cleaned text against the pool of canonical-plus-aliases, then whole-word
regex search of each pool member, then the next entry. -/
def subjectScan : List (String × List String) → String → Option String
  | [], _ => none
  | (canon, aliases) :: rest, tc =>
    let poolNorm := (canon :: aliases).map pyNorm
    if poolNorm.any (fun p => tc = p) then some (niceSubjectName (pyLower canon))
    else if poolNorm.any (fun a => wordSearch a.toList tc.toList) then
      some (niceSubjectName (pyLower canon))
    else subjectScan rest tc

/-- `canonical_subject` from the source. -/
def canonical_subject (label : String) : Option String :=
  let t := pyNorm label
  if t = "" then none
  else subjectScan VALID_SUBJECTS (cleanText t)

/-- `teacher_has_subject` from the source. -/
def teacher_has_subject (teacherSubjects : List String) (wantedLabel : String) : Bool :=
  match canonical_subject wantedLabel with
  | none => false
  | some wanted => teacherSubjects.any (fun s => canonical_subject s = some wanted)

/-- `canonical_board` from the source: three fixed alias groups, and
anything else passes through (the normalized text itself). -/
def canonical_board (label : String) : String :=
  let t := pyNorm label
  if t = "o" || t = "oxford" || t = "oxfordaqa" || t = "oxford aqa" then "oxfordaqa"
  else if t = "c" || t = "cambridge" then "cambridge"
  else if t = "e" || t = "edexcel" || t = "pearson edexcel" || t = "pearson" then "edexcel"
  else t

/-! ## Teacher catalog and the matcher -/

/-- One catalog record, with the fields the matcher reads.  A missing or
empty id falls back to the name as dedup key, as in the source. -/
structure Teacher where
  id : Option String
  name : String
  subjects : List String
  grades : List Int
  boards : List String
deriving DecidableEq, Repr

/-- The precomputed canonical boards of a record (the per-record field
derived at load time in the source). -/
def boardsCanon (t : Teacher) : List String :=
  t.boards.map canonical_board

/-- Lexicographic comparison of character lists by code point, modeling
Python string comparison. -/
def charListLe : List Char → List Char → Bool
  | [], _ => true
  | _ :: _, [] => false
  | a :: as, b :: bs => if a = b then charListLe as bs else decide (a < b)

/-- Python string less-or-equal. -/
def strLe (a b : String) : Bool :=
  charListLe a.toList b.toList

/-- The candidate filter of `match_teachers`: the record survives the
subject test (skipped for an absent or empty subject), the grade test
(skipped for an absent grade) and the board test (skipped when the
canonical board is empty). -/
def passesFilters (t : Teacher) (subject : Option String) (grade : Option Int)
    (boardCan : String) : Bool :=
  (match subject with
   | some s => if s = "" then true else teacher_has_subject t.subjects s
   | none => true) &&
  (match grade with
   | some g => decide (g ∈ t.grades)
   | none => true) &&
  (if boardCan = "" then true else decide (boardCan ∈ boardsCanon t))

/-- The ascending-by-lowercased-name order the matcher sorts with. -/
def nameLe (a b : Teacher) : Prop :=
  strLe (pyLower a.name) (pyLower b.name) = true

instance : DecidableRel nameLe := fun _ _ => instDecidableEqBool _ _

/-- The canonical board computed once at the top of `match_teachers`
(empty for an absent or empty board argument). -/
def boardCanOf (board : Option String) : String :=
  match board with
  | some b => if b = "" then "" else canonical_board b
  | none => ""

/-- `match_teachers` from the source: canonicalize the board once, keep
the records passing every supplied filter, sort ascending by lowercased
name (Python's list sort is stable; the stable insertion sort is
extensionally the same function), truncate to the limit. -/
def match_teachers (cat : List Teacher) (subject : Option String) (grade : Option Int)
    (board : Option String) (limit : Nat) : List Teacher :=
  let results := cat.filter (fun t => passesFilters t subject grade (boardCanOf board))
  (results.insertionSort nameLe).take limit

/-- The dedup key of a record: the id when present and non-empty, else the
name (Python falsiness of the id field). -/
def dedupKey (t : Teacher) : String :=
  match t.id with
  | some i => if i = "" then t.name else i
  | none => t.name

/-- The inner loop of `collect_best_matches` over one subject's matches:
skip already-seen keys, append the rest, and return early (flag true) as
soon as the accumulated list reaches `k`. -/
def collectInner (k : Nat) (seen : List String) (out : List Teacher) :
    List Teacher → List String × List Teacher × Bool
  | [] => (seen, out, false)
  | t :: rest =>
    let tid := dedupKey t
    if tid ∈ seen then collectInner k seen out rest
    else
      let out2 := out ++ [t]
      if k ≤ out2.length then (tid :: seen, out2, true)
      else collectInner k (tid :: seen) out2 rest

/-- The outer loop of `collect_best_matches` over the requested subjects,
fetching at most 3 matches per subject. -/
def collectOuter (cat : List Teacher) (grade : Int) (board : String) (k : Nat)
    (seen : List String) (out : List Teacher) : List String → List Teacher
  | [] => out
  | s :: rest =>
    match collectInner k seen out (match_teachers cat (some s) (some grade) (some board) 3) with
    | (_, out2, true) => out2
    | (seen2, out2, false) => collectOuter cat grade board k seen2 out2 rest

/-- `collect_best_matches` from the source. -/
def collect_best_matches (cat : List Teacher) (subjects : List String) (grade : Int)
    (board : String) (k : Nat) : List Teacher :=
  collectOuter cat grade board k [] [] subjects

/-! ## Callback-data codec for the subject multi-select -/

/-- Join character lists with a dot separator (Python str.join). -/
def dotJoin : List (List Char) → List Char
  | [] => []
  | [x] => x
  | x :: y :: ys => x ++ '.' :: dotJoin (y :: ys)

/-- The plain string order used by Python sorted. -/
def strLeP (a b : String) : Prop := strLe a b = true

instance : DecidableRel strLeP := fun _ _ => instDecidableEqBool _ _

/-- `encode_sel` from the source: the sorted codes joined by dots, empty
for the empty selection.  The selection set is modeled as a duplicate-free
list. -/
def encode_sel (sel : List String) : String :=
  if sel.isEmpty then ""
  else String.mk (dotJoin ((sel.insertionSort strLeP).map String.toList))

/-- Split a character list at every dot (Python str.split with a dot). -/
def splitDotChars : List Char → List (List Char)
  | [] => [[]]
  | c :: rest =>
    if c = '.' then [] :: splitDotChars rest
    else
      match splitDotChars rest with
      | [] => [[c]]
      | g :: gs => (c :: g) :: gs

/-- Python str.split on dots, as strings. -/
def splitDot (s : String) : List String :=
  (splitDotChars s.toList).map String.mk

/-- `decode_sel` from the source: split on dots and drop empty pieces.
The resulting set is represented as the list of its elements. -/
def decode_sel (s : String) : List String :=
  (splitDot s).filter (fun x => x ≠ "")

/-! ## Bytes, SHA-256 and HMAC

Byte strings are lists of naturals below 256.  The hash and MAC used by the
signed-token helpers are embedded concretely so the token functions are
executable. -/

/-- 2 to the 32, the word modulus. -/
def M32 : Nat := 4294967296

/-- Addition modulo 2 to the 32. -/
def add32 (a b : Nat) : Nat := (a + b) % M32

/-- Right rotation of a 32-bit word, expressed arithmetically (the two
parts are disjoint, so the bitwise or is a sum). -/
def rotr32 (n x : Nat) : Nat := x / 2 ^ n + x % 2 ^ n * 2 ^ (32 - n)

/-- Logical right shift. -/
def shr32 (n x : Nat) : Nat := x / 2 ^ n

/-- Bitwise complement of a 32-bit word. -/
def not32 (x : Nat) : Nat := 4294967295 - x

/-- SHA-256 big sigma 0. -/
def bSig0 (x : Nat) : Nat := rotr32 2 x ^^^ rotr32 13 x ^^^ rotr32 22 x

/-- SHA-256 big sigma 1. -/
def bSig1 (x : Nat) : Nat := rotr32 6 x ^^^ rotr32 11 x ^^^ rotr32 25 x

/-- SHA-256 small sigma 0. -/
def sSig0 (x : Nat) : Nat := rotr32 7 x ^^^ rotr32 18 x ^^^ shr32 3 x

/-- SHA-256 small sigma 1. -/
def sSig1 (x : Nat) : Nat := rotr32 17 x ^^^ rotr32 19 x ^^^ shr32 10 x

/-- SHA-256 choice function. -/
def chFn (x y z : Nat) : Nat := (x &&& y) ^^^ (not32 x &&& z)

/-- SHA-256 majority function. -/
def majFn (x y z : Nat) : Nat := (x &&& y) ^^^ (x &&& z) ^^^ (y &&& z)

/-- SHA-256 round constants. -/
def KConst : List Nat := [
  1116352408, 1899447441, 3049323471, 3921009573, 961987163, 1508970993, 2453635748,
  2870763221, 3624381080, 310598401, 607225278, 1426881987, 1925078388, 2162078206,
  2614888103, 3248222580, 3835390401, 4022224774, 264347078, 604807628, 770255983,
  1249150122, 1555081692, 1996064986, 2554220882, 2821834349, 2952996808, 3210313671,
  3336571891, 3584528711, 113926993, 338241895, 666307205, 773529912, 1294757372,
  1396182291, 1695183700, 1986661051, 2177026350, 2456956037, 2730485921, 2820302411,
  3259730800, 3345764771, 3516065817, 3600352804, 4094571909, 275423344, 430227734,
  506948616, 659060556, 883997877, 958139571, 1322822218, 1537002063, 1747873779,
  1955562222, 2024104815, 2227730452, 2361852424, 2428436474, 2756734187, 3204031479,
  3329325298]

/-- SHA-256 initial state. -/
def HInit : List Nat := [
  1779033703, 3144134277, 1013904242, 2773480762, 1359893119, 2600822924, 528734635,
  1541459225]

/-- Append the next word of the message schedule. -/
def scheduleStep (ws : List Nat) : List Nat :=
  ws ++ [add32 (add32 (sSig1 (ws.getD (ws.length - 2) 0)) (ws.getD (ws.length - 7) 0))
          (add32 (sSig0 (ws.getD (ws.length - 15) 0)) (ws.getD (ws.length - 16) 0))]

/-- Extend a 16-word block by the given number of schedule steps. -/
def buildSchedule (ws : List Nat) : Nat → List Nat
  | 0 => ws
  | n + 1 => buildSchedule (scheduleStep ws) n

/-- One SHA-256 round on the 8-word working state. -/
def sha256Round (st : List Nat) (kw : Nat × Nat) : List Nat :=
  match st with
  | [a, b, c, d, e, f, g, h] =>
    let t1 := add32 h (add32 (bSig1 e) (add32 (chFn e f g) (add32 kw.1 kw.2)))
    let t2 := add32 (bSig0 a) (majFn a b c)
    [add32 t1 t2, a, b, c, add32 d t1, e, f, g]
  | other => other

/-- SHA-256 compression of one block into the chaining state. -/
def sha256Compress (h0 block16 : List Nat) : List Nat :=
  let w := buildSchedule block16 48
  let st := (KConst.zip w).foldl sha256Round h0
  (h0.zip st).map (fun p => add32 p.1 p.2)

/-- Big-endian length field of the padding, eight bytes. -/
def lenBytes64 (n : Nat) : List Nat :=
  [n / 2 ^ 56 % 256, n / 2 ^ 48 % 256, n / 2 ^ 40 % 256, n / 2 ^ 32 % 256,
   n / 2 ^ 24 % 256, n / 2 ^ 16 % 256, n / 2 ^ 8 % 256, n % 256]

/-- SHA-256 message padding. -/
def padMsg (msg : List Nat) : List Nat :=
  let L := msg.length
  msg ++ 128 :: List.replicate ((64 + 55 - L % 64) % 64) 0 ++ lenBytes64 (8 * L)

/-- Group bytes into big-endian 32-bit words. -/
def toWords : List Nat → List Nat
  | b0 :: b1 :: b2 :: b3 :: rest => (((b0 * 256 + b1) * 256 + b2) * 256 + b3) :: toWords rest
  | _ => []

/-- Fueled grouping of words into 16-word blocks. -/
def toBlocksF : Nat → List Nat → List (List Nat)
  | 0, _ => []
  | _ + 1, [] => []
  | fuel + 1, w :: rest => ((w :: rest).take 16) :: toBlocksF fuel ((w :: rest).drop 16)

/-- Group words into 16-word blocks; one fuel unit per word is always
sufficient. -/
def toBlocks (l : List Nat) : List (List Nat) :=
  toBlocksF l.length l

/-- Big-endian bytes of one word. -/
def wordBytes (w : Nat) : List Nat :=
  [w / 2 ^ 24 % 256, w / 2 ^ 16 % 256, w / 2 ^ 8 % 256, w % 256]

/-- SHA-256 of a byte string. -/
def sha256 (msg : List Nat) : List Nat :=
  ((toBlocks (toWords (padMsg msg))).foldl sha256Compress HInit).foldr
    (fun w acc => wordBytes w ++ acc) []

/-- HMAC-SHA-256, as used by the token signing helpers. -/
def hmacSha256 (key msg : List Nat) : List Nat :=
  let k0 := if 64 < key.length then sha256 key else key
  let kPad := k0 ++ List.replicate (64 - k0.length) 0
  sha256 ((kPad.map (fun b => b ^^^ 92)) ++
          sha256 ((kPad.map (fun b => b ^^^ 54)) ++ msg))

/-- Python str.encode, modeled at the ASCII level (all payloads handled by
the proved statements are ASCII; multi-byte UTF-8 is not modeled). -/
def asciiBytes (s : String) : List Nat :=
  s.toList.map Char.toNat

/-- Python bytes.decode, modeled at the ASCII level: non-ASCII bytes make
the decode fail (CPython would attempt a UTF-8 decode instead). -/
def asciiDecode (bs : List Nat) : Option String :=
  if bs.all (fun b => b < 128) then some (String.mk (bs.map Char.ofNat)) else none

/-! ## URL-safe base64 without padding: `_b64u` and `_b64u_dec` -/

/-- The URL-safe base64 alphabet. -/
def b64Alphabet : List Char :=
  "ABCDEFGHIJKLMNOPQRSTUVWXYZabcdefghijklmnopqrstuvwxyz0123456789-_".toList

/-- The alphabet character of a 6-bit value. -/
def encB64 (n : Nat) : Char := b64Alphabet.getD n '?'

/-- The 6-bit value of an alphabet character. -/
def decB64 (c : Char) : Option Nat := b64Alphabet.findIdx? (fun x => x = c)

/-- Unpadded URL-safe base64 encoding of a byte string.  The source
encodes with padding and strips the equals signs; the composition is
modeled directly, emitting 2, 3 or 4 characters for 1, 2 or 3 trailing
bytes. -/
def b64Core : List Nat → List Char
  | [] => []
  | [b0] => [encB64 (b0 / 4), encB64 (b0 % 4 * 16)]
  | [b0, b1] => [encB64 (b0 / 4), encB64 (b0 % 4 * 16 + b1 / 16), encB64 (b1 % 16 * 4)]
  | b0 :: b1 :: b2 :: rest =>
    encB64 (b0 / 4) :: encB64 (b0 % 4 * 16 + b1 / 16) ::
      encB64 (b1 % 16 * 4 + b2 / 64) :: encB64 (b2 % 64) :: b64Core rest

/-- `_b64u` from the source. -/
def b64u (bs : List Nat) : String := String.mk (b64Core bs)

/-- Unpadded URL-safe base64 decoding.  The source re-pads and calls the
library decoder; the composition is modeled directly: groups of 4
characters, a 2- or 3-character tail, and failure on a 1-character tail or
a character outside the alphabet (CPython first discards foreign
characters; the statements proved here only use alphabet characters, where
the two agree). -/
def b64DecCore : List Char → Option (List Nat)
  | [] => some []
  | [_] => none
  | [c0, c1] => do
    let v0 ← decB64 c0
    let v1 ← decB64 c1
    some [v0 * 4 + v1 / 16]
  | [c0, c1, c2] => do
    let v0 ← decB64 c0
    let v1 ← decB64 c1
    let v2 ← decB64 c2
    some [v0 * 4 + v1 / 16, v1 % 16 * 16 + v2 / 4]
  | c0 :: c1 :: c2 :: c3 :: rest => do
    let v0 ← decB64 c0
    let v1 ← decB64 c1
    let v2 ← decB64 c2
    let v3 ← decB64 c3
    let tail ← b64DecCore rest
    some ((v0 * 4 + v1 / 16) :: (v1 % 16 * 16 + v2 / 4) :: (v2 % 4 * 64 + v3) :: tail)

/-- `_b64u_dec` from the source. -/
def b64uDec (s : String) : Option (List Nat) := b64DecCore s.toList

/-! ## JSON values, compact serialization and parsing

The payloads signed by the source are JSON objects of strings, integers
and nulls.  JSON is modeled with integer numbers (floats are outside this
embedding) and objects as ordered key-value lists (Python dicts preserve
insertion order). -/

/-- A JSON value. -/
inductive Json where
  | null : Json
  | bool : Bool → Json
  | num : Int → Json
  | str : String → Json
  | arr : List Json → Json
  | obj : List (String × Json) → Json

/-- Hex digit characters, lowercase, as emitted in JSON escapes. -/
def hexDigit (n : Nat) : Char :=
  "0123456789abcdef".toList.getD n '0'

/-- The serialization of one string character: JSON escapes of the quote,
backslash and control characters, everything else verbatim (the source
serializes with ensure_ascii disabled). -/
def escChar (c : Char) : List Char :=
  if c = '"' then ['\\', '"']
  else if c = '\\' then ['\\', '\\']
  else if c = '\n' then ['\\', 'n']
  else if c = '\t' then ['\\', 't']
  else if c = '\x0d' then ['\\', 'r']
  else if c = '\x08' then ['\\', 'b']
  else if c = '\x0c' then ['\\', 'f']
  else if c.toNat < 32 then
    ['\\', 'u', '0', '0', hexDigit (c.toNat / 16), hexDigit (c.toNat % 16)]
  else [c]

/-- Escaped content of a JSON string literal. -/
def escString (l : List Char) : List Char :=
  match l with
  | [] => []
  | c :: rest => escChar c ++ escString rest

/-- Decimal digits of a natural number below the fuel bound. -/
def natDumpF : Nat → Nat → List Char
  | 0, _ => []
  | fuel + 1, n =>
    if n < 10 then [Char.ofNat (48 + n)]
    else natDumpF fuel (n / 10) ++ [Char.ofNat (48 + n % 10)]

/-- Decimal digits of a natural number. -/
def natDump (n : Nat) : List Char :=
  natDumpF (n + 1) n

/-- Decimal form of an integer. -/
def intDump (n : Int) : List Char :=
  if n < 0 then '-' :: natDump n.natAbs else natDump n.natAbs

mutual

/-- Compact JSON serialization, modeling json.dumps with the separators
used by the source (comma and colon, no spaces). -/
def dumpChars : Json → List Char
  | .null => 'n' :: 'u' :: ['l', 'l']
  | .bool true => 't' :: 'r' :: ['u', 'e']
  | .bool false => 'f' :: 'a' :: ['l', 's', 'e']
  | .num n => intDump n
  | .str s => '"' :: (escString s.toList ++ ['"'])
  | .arr xs => '[' :: (dumpItems xs ++ [']'])
  | .obj kvs => '\x7b' :: (dumpMembers kvs ++ ['\x7d'])

/-- Comma-joined serialization of array items. -/
def dumpItems : List Json → List Char
  | [] => []
  | [x] => dumpChars x
  | x :: y :: ys => dumpChars x ++ ',' :: dumpItems (y :: ys)

/-- Comma-joined serialization of object members, each a quoted key, a
colon and a value. -/
def dumpMembers : List (String × Json) → List Char
  | [] => []
  | [kv] => '"' :: (escString kv.1.toList ++ '"' :: ':' :: dumpChars kv.2)
  | kv :: kv2 :: rest =>
    ('"' :: (escString kv.1.toList ++ '"' :: ':' :: dumpChars kv.2)) ++
      ',' :: dumpMembers (kv2 :: rest)

end

/-- json.dumps of the source, as a string. -/
def jsonDump (v : Json) : String := String.mk (dumpChars v)

/-- Value of a hex digit character. -/
def hexVal (c : Char) : Option Nat :=
  if '0' ≤ c && c ≤ '9' then some (c.toNat - 48)
  else if 'a' ≤ c && c ≤ 'f' then some (c.toNat - 87)
  else if 'A' ≤ c && c ≤ 'F' then some (c.toNat - 55)
  else none

/-- Fueled parse of the content of a JSON string literal up to the closing
quote, handling the escapes emitted by the serializer. -/
def pStrCharsF : Nat → List Char → Option (List Char × List Char)
  | 0, _ => none
  | fuel + 1, l =>
    match l with
    | [] => none
    | c :: rest =>
      if c = '"' then some ([], rest)
      else if c = '\\' then
        match rest with
        | [] => none
        | e :: rest2 =>
          if e = 'u' then
            match rest2 with
            | h1 :: h2 :: h3 :: h4 :: rest3 => do
              let v1 ← hexVal h1
              let v2 ← hexVal h2
              let v3 ← hexVal h3
              let v4 ← hexVal h4
              let (tail, rem) ← pStrCharsF fuel rest3
              some (Char.ofNat (((v1 * 16 + v2) * 16 + v3) * 16 + v4) :: tail, rem)
            | _ => none
          else do
            let d ← if e = '"' then some '"'
                    else if e = '\\' then some '\\'
                    else if e = '/' then some '/'
                    else if e = 'n' then some '\n'
                    else if e = 't' then some '\t'
                    else if e = 'r' then some '\x0d'
                    else if e = 'b' then some '\x08'
                    else if e = 'f' then some '\x0c'
                    else none
            let (tail, rem) ← pStrCharsF fuel rest2
            some (d :: tail, rem)
      else do
        let (tail, rem) ← pStrCharsF fuel rest
        some (c :: tail, rem)

/-- Parse of a JSON string literal content; the fuel bound of one unit per
character is always sufficient. -/
def pStrChars (l : List Char) : Option (List Char × List Char) :=
  pStrCharsF (l.length + 1) l

/-- Accumulate decimal digits. -/
def digitsAcc (acc : Nat) : List Char → Nat × List Char
  | [] => (acc, [])
  | c :: rest =>
    if isDigitChar c then digitsAcc (acc * 10 + (c.toNat - 48)) rest
    else (acc, c :: rest)

/-- Parse a nonempty digit run. -/
def pDigits : List Char → Option (Nat × List Char)
  | [] => none
  | c :: rest =>
    if isDigitChar c then some (digitsAcc (c.toNat - 48) rest) else none

/-- Parse a JSON integer (an optional minus sign and digits; fractional
and exponent forms are outside this embedding). -/
def pNum : List Char → Option (Int × List Char)
  | [] => none
  | c :: rest =>
    if c = '-' then (pDigits rest).map (fun p => (-(p.1 : Int), p.2))
    else (pDigits (c :: rest)).map (fun p => ((p.1 : Int), p.2))

mutual

/-- Fueled parser for one JSON value, dispatching on the first
character. -/
def pVal : Nat → List Char → Option (Json × List Char)
  | 0, _ => none
  | _ + 1, [] => none
  | fuel + 1, c :: rest =>
    if c = 'n' then
      if rest.take 3 = ['u', 'l', 'l'] then some (.null, rest.drop 3) else none
    else if c = 't' then
      if rest.take 3 = ['r', 'u', 'e'] then some (.bool true, rest.drop 3) else none
    else if c = 'f' then
      if rest.take 4 = ['a', 'l', 's', 'e'] then some (.bool false, rest.drop 4) else none
    else if c = '"' then
      (pStrChars rest).map (fun p => (.str (String.mk p.1), p.2))
    else if c = '[' then
      if rest.head? = some ']' then some (.arr [], rest.tail)
      else (pItems fuel rest).map (fun p => (.arr p.1, p.2))
    else if c = '\x7b' then
      if rest.head? = some '\x7d' then some (.obj [], rest.tail)
      else (pMembers fuel rest).map (fun p => (.obj p.1, p.2))
    else (pNum (c :: rest)).map (fun p => (.num p.1, p.2))

/-- Fueled parser for the items of a non-empty array, including the
closing bracket. -/
def pItems : Nat → List Char → Option (List Json × List Char)
  | 0, _ => none
  | fuel + 1, l => do
    let (v, rest) ← pVal fuel l
    match rest with
    | ',' :: rest2 => do
      let (vs, rem) ← pItems fuel rest2
      some (v :: vs, rem)
    | ']' :: rest2 => some ([v], rest2)
    | _ => none

/-- Fueled parser for the members of a non-empty object, including the
closing brace. -/
def pMembers : Nat → List Char → Option (List (String × Json) × List Char)
  | 0, _ => none
  | fuel + 1, l =>
    match l with
    | '"' :: lk => do
      let (k, rest) ← pStrChars lk
      match rest with
      | ':' :: rest2 => do
        let (v, rest3) ← pVal fuel rest2
        match rest3 with
        | ',' :: rest4 => do
          let (kvs, rem) ← pMembers fuel rest4
          some ((String.mk k, v) :: kvs, rem)
        | '\x7d' :: rest4 => some ([(String.mk k, v)], rest4)
        | _ => none
      | _ => none
    | _ => none

end

/-- json.loads of the source, restricted to the grammar produced by the
serializer (no inter-token whitespace, integer numbers); the whole input
must be consumed. -/
def jsonParse (s : String) : Option Json :=
  match pVal (s.length + 1) s.toList with
  | some (v, []) => some v
  | _ => none

mutual

/-- Parser fuel sufficient for a value (used only in proofs). -/
def jfuel : Json → Nat
  | .null => 1
  | .bool _ => 1
  | .num _ => 1
  | .str _ => 1
  | .arr xs => 1 + jfuelItems xs
  | .obj kvs => 1 + jfuelMembers kvs

/-- Parser fuel sufficient for array items. -/
def jfuelItems : List Json → Nat
  | [] => 0
  | x :: xs => 1 + jfuel x + jfuelItems xs

/-- Parser fuel sufficient for object members. -/
def jfuelMembers : List (String × Json) → Nat
  | [] => 0
  | kv :: kvs => 1 + jfuel kv.2 + jfuelMembers kvs

end

/-- The rest of an input does not begin with a digit (the condition under
which a parsed number is not extended by the following characters). -/
def notDigitStart (l : List Char) : Prop :=
  ∀ c, l.head? = some c → isDigitChar c = false

/-- The payloads covered by the proved round trip: the serialized form is
ASCII (the source encodes and decodes payload bytes as UTF-8; the
embedding models the byte level only for ASCII). -/
def wellFormedPayload (v : Json) : Prop :=
  ((jsonDump v).toList.all (fun c => c.toNat < 128)) = true

/-! ## Signed tokens: `sign_wa_token`, `unsign_wa_token`, deep links -/

/-- Python str.split with maxsplit one, unpacked into two parts; absence
of the separator is the unpack failure caught by the callers. -/
def splitOnce (sep : Char) : List Char → Option (List Char × List Char)
  | [] => none
  | c :: rest =>
    if c = sep then some ([], rest)
    else (splitOnce sep rest).map (fun p => (c :: p.1, p.2))

/-- `sign_wa_token` from the source: compact JSON, HMAC-SHA-256 with the
signing secret, both base64url-encoded and joined by a dot. -/
def sign_wa_token (secret : List Nat) (obj : Json) : String :=
  let raw := asciiBytes (jsonDump obj)
  b64u raw ++ "." ++ b64u (hmacSha256 secret raw)

/-- `unsign_wa_token` from the source: split at the first dot, decode both
parts, compare the embedded signature with the recomputed one, parse the
payload; every failure yields none (the source catches all exceptions). -/
def unsign_wa_token (secret : List Nat) (tok : String) : Option Json :=
  match splitOnce '.' tok.toList with
  | none => none
  | some (rawB, sigB) =>
    match b64uDec (String.mk rawB), b64uDec (String.mk sigB) with
    | some raw, some sig =>
      if sig = hmacSha256 secret raw then
        match asciiDecode raw with
        | some s => jsonParse s
        | none => none
      else none
    | _, _ => none

/-- Python dict item assignment: replace in place when the key exists,
append otherwise. -/
def setItem (d : List (String × Json)) (k : String) (v : Json) : List (String × Json) :=
  if d.any (fun kv => kv.1 = k) then d.map (fun kv => if kv.1 = k then (k, v) else kv)
  else d ++ [(k, v)]

/-- Python dict.update: assign every pair of the other dict in order. -/
def dictUpdate (base extra : List (String × Json)) : List (String × Json) :=
  extra.foldl (fun acc kv => setItem acc kv.1 kv.2) base

/-- The payload built by `make_deeplink`: campaign id and timestamp,
updated with the extra entries. -/
def deeplinkPayload (cid : String) (ts : Int) (extra : List (String × Json)) :
    List (String × Json) :=
  dictUpdate [("cid", .str cid), ("ts", .num ts)] extra

/-- The token part of `make_deeplink` from the source. -/
def make_deeplink_token (secret : List Nat) (cid : String) (ts : Int)
    (extra : List (String × Json)) : String :=
  let raw := asciiBytes (jsonDump (.obj (deeplinkPayload cid ts extra)))
  b64u raw ++ "." ++ b64u (hmacSha256 secret raw)

/-- `make_deeplink` from the source: the bot start link carrying the
token. -/
def make_deeplink (secret : List Nat) (botUsername cid : String) (ts : Int)
    (extra : List (String × Json)) : String :=
  "https://t.me/" ++ botUsername ++ "?start=" ++ make_deeplink_token secret cid ts extra

/-- `verify_deeplink_token` from the source (same shape as
`unsign_wa_token` with the deep-link secret). -/
def verify_deeplink_token (secret : List Nat) (tok : String) : Option Json :=
  match splitOnce '.' tok.toList with
  | none => none
  | some (rawB, sigB) =>
    match b64uDec (String.mk rawB), b64uDec (String.mk sigB) with
    | some raw, some sig =>
      if sig = hmacSha256 secret raw then
        match asciiDecode raw with
        | some s => jsonParse s
        | none => none
      else none
    | _, _ => none

/-! ## The two WhatsApp redirect endpoints -/

/-- The response shapes distinguished by the claims: a Flask redirect, the
HTML interstitial of the standalone service, plain-text and JSON error
bodies, and the platform's internal-error page for unhandled exceptions. -/
inductive RespBody where
  | redirectTo : String → RespBody
  | htmlRedirectPage : String → RespBody
  | plain : String → RespBody
  | jsonErr : String → RespBody
  | internalError : RespBody
deriving DecidableEq, Repr

/-- An HTTP response: status code and body shape. -/
structure Resp where
  status : Nat
  body : RespBody
deriving DecidableEq, Repr

/-- Lookup of a key in a decoded JSON object. -/
def jget (kvs : List (String × Json)) (k : String) : Option Json :=
  (kvs.find? (fun kv => kv.1 = k)).map (fun kv => kv.2)

/-- The string-or-empty read the endpoints perform on payload fields
(dict.get with empty default, then Python or-with-empty): an absent or
null field reads as empty, a string reads as itself, and any other type
is the unhandled TypeError of the later substitution. -/
def pyStrField (kvs : List (String × Json)) (k : String) : Option String :=
  match jget kvs k with
  | none => some ""
  | some (.str s) => some s
  | some .null => some ""
  | some _ => none

/-- Keep only ASCII digits, modeling the substitution deleting non-digit
runs. -/
def digitsOnly (s : String) : String :=
  String.mk (s.toList.filter isDigitChar)

/-- Uppercase hex digit. -/
def hexUpper (n : Nat) : Char :=
  "0123456789ABCDEF".toList.getD n '0'

/-- Characters the requests library leaves unquoted in a URI (unreserved
and reserved characters; ASCII model of requote_uri). -/
def requoteSafe (c : Char) : Bool :=
  ('a' ≤ c && c ≤ 'z') || ('A' ≤ c && c ≤ 'Z') || ('0' ≤ c && c ≤ '9') ||
    ['-', '.', '_', '~', '!', '#', '$', '%', '&', '(', ')', '*', '+', ',', '/',
      ':', ';', '=', '?', '@', '[', ']'].contains c || c = Char.ofNat 39

/-- Percent-encoding of the prefill text as done by requote_uri (ASCII
model). -/
def requoteUri (s : String) : String :=
  String.mk (s.toList.foldr
    (fun c acc =>
      if requoteSafe c then c :: acc
      else '%' :: hexUpper (c.toNat / 16 % 16) :: hexUpper (c.toNat % 16) :: acc) [])

/-- Characters urllib quote leaves unquoted with its default safe set
(unreserved characters and the slash). -/
def quoteSafe (c : Char) : Bool :=
  ('a' ≤ c && c ≤ 'z') || ('A' ≤ c && c ≤ 'Z') || ('0' ≤ c && c ≤ '9') ||
    ['_', '.', '~', '-', '/'].contains c

/-- urllib.parse.quote (ASCII model). -/
def pyQuote (s : String) : String :=
  String.mk (s.toList.foldr
    (fun c acc =>
      if quoteSafe c then c :: acc
      else '%' :: hexUpper (c.toNat / 16 % 16) :: hexUpper (c.toNat % 16) :: acc) [])

/-- Lowercase hex digest of a byte string (hexdigest of the MAC). -/
def hexStr (bs : List Nat) : String :=
  String.mk (bs.foldr (fun b acc => hexDigit (b / 16) :: hexDigit (b % 16) :: acc) [])

/-- The GET handler of api/webhook.py for the wa route: unsign the token
parameter, answer 400 on failure, else 302 to the wa.me link built from
the payload's number and prefill text (empty number falls back to the
portal number). -/
def wa_redirect_webhook (secret : List Nat) (portal : String) (t : String) : Resp :=
  match unsign_wa_token secret t with
  | none => ⟨400, .plain "Bad token"⟩
  | some (.obj kvs) =>
    match pyStrField kvs "wa", pyStrField kvs "text" with
    | some waRaw, some text =>
      let wa := if digitsOnly waRaw = "" then portal else digitsOnly waRaw
      ⟨302, .redirectTo ("https://wa.me/" ++ wa ++ "?text=" ++ requoteUri text)⟩
    | _, _ => ⟨500, .internalError⟩
  | some _ => ⟨500, .internalError⟩

/-- The GET handler of api/wa.py: when a signing secret is configured the
hex HMAC of the raw token parameter must equal the sig parameter (else
403); the token is then base64-decoded and JSON-parsed (failure: 400); on
success the endpoint answers 200 with an HTML page that forwards to the
wa.me link (not an HTTP redirect). -/
def wa_redirect_wapy (secret portal : String) (t sig : String) : Resp :=
  if secret ≠ "" && hexStr (hmacSha256 (asciiBytes secret) (asciiBytes t)) ≠ sig then
    ⟨403, .jsonErr "bad signature"⟩
  else
    match b64uDec t with
    | none => ⟨400, .jsonErr "bad token"⟩
    | some raw =>
      match asciiDecode raw with
      | none => ⟨400, .jsonErr "bad token"⟩
      | some s =>
        match jsonParse s with
        | none => ⟨400, .jsonErr "bad token"⟩
        | some (.obj kvs) =>
          match pyStrField kvs "wa", pyStrField kvs "text" with
          | some waRaw, some txt =>
            let wa := if digitsOnly waRaw = "" then portal else digitsOnly waRaw
            ⟨200, .htmlRedirectPage ("https://wa.me/" ++ wa ++ "?text=" ++ pyQuote txt)⟩
          | _, _ => ⟨500, .internalError⟩
        | some _ => ⟨500, .internalError⟩

/-! ## Session state and the webhook handler branches for the claims -/

/-- Per-subject preference stored by the LPW branch. -/
structure Pref where
  mode : Option String
  lpw : Int
deriving DecidableEq, Repr

/-- One board-grade-subjects selection of a session. -/
structure Selection where
  board_code : String
  grade : Int
  subjects : List String
  prefs : List (String × Pref)
deriving DecidableEq, Repr

/-- The per-subject preference walk state. -/
structure PrefFlow where
  selIdx : Nat
  i : Nat
  subjects : List String
  currentMode : Option String
deriving DecidableEq, Repr

/-- The per-chat session state, together with the chat's recent-done
signature list (the idempotency structure of the source). -/
structure ChatState where
  stage : String
  name : String
  selections : List Selection
  prefFlow : Option PrefFlow
  recentDone : List (String × Int)
deriving DecidableEq, Repr

/-- The outbound bot-API calls a handler branch performs, reduced to the
method and its user-visible role. -/
inductive TgCall where
  | answerCallback : Option String → TgCall
  | editMessage : String → TgCall
  | sendMessage : String → TgCall
  | sendPhoto : TgCall
deriving DecidableEq, Repr

/-- CODE_TO_SUBJECT from the source. -/
def CODE_TO_SUBJECT : List (String × String) := [
  ("MTH_CORE", "Math (Core)"),
  ("MTH_ALEVEL", "Math (AS/A Level)"),
  ("PHY_CORE", "Physics (Core)"),
  ("PHY_ALEVEL", "Physics (AS/A Level)"),
  ("CHE_CORE", "Chemistry (Core)"),
  ("CHE_ALEVEL", "Chemistry (AS/A Level)"),
  ("BIO_CORE", "Biology (Core)"),
  ("BIO_ALEVEL", "Biology (AS/A Level)"),
  ("ENL", "English SL"),
  ("ENLIT", "English FL"),
  ("BUS_CORE", "Business (Core)"),
  ("BUS_ALEVEL", "Business (AS/A Level)"),
  ("ECO_CORE", "Economics (Core)"),
  ("ECO_ALEVEL", "Economics (AS/A Level)"),
  ("PSY_ALEVEL", "Psychology (AS/A Level)"),
  ("ACC", "Accounting"),
  ("SOC", "Sociology"),
  ("FR", "French"),
  ("DE", "German"),
  ("AR", "Arabic"),
  ("ICT", "ICT"),
  ("CS", "Computer Science"),
  ("COMSCI", "Combined Science"),
  ("EM", "Environmental Management"),
  ("PE", "Physical Education"),
  ("TT", "Travel & Tourism")]

/-- `already_done` from the source, in state-passing form: drop expired
entries, report whether the signature is present, record it otherwise. -/
def already_done (recent : List (String × Int)) (signature : String) (now : Int)
    (ttl : Int := 300) : Bool × List (String × Int) :=
  let lst := recent.filter (fun kt => now - kt.2 < ttl)
  if lst.any (fun kt => kt.1 = signature) then (true, lst)
  else (false, lst ++ [(signature, now)])

/-- The subject-selection-complete branch of the webhook handler (the
branch dispatched on a D-prefixed callback).  It decodes the selected
codes, answers a prompt when the selection is empty, and otherwise
unconditionally appends a selection, starts the preference walk and edits
the message — the recent-done signature list is never consulted (the
`already_done` helper has no call site in the handler).  An unknown code
is the KeyError caught by the top-level handler, modeled as none.  The
timestamp argument only stands for the delivery time; the branch ignores
it. -/
def doneHandler (st : ChatState) (b : String) (g : Int) (enc : String) (_now : Int) :
    Option (ChatState × List TgCall) :=
  let selCodes := (splitDot enc).filter (fun x => x ≠ "")
  if selCodes.isEmpty then
    some (st, [.answerCallback none,
               .answerCallback (some "Please select at least one subject.")])
  else do
    let subjects ← selCodes.mapM (fun c => CODE_TO_SUBJECT.lookup c)
    let selection : Selection := ⟨b, g, subjects, []⟩
    let sels := st.selections ++ [selection]
    let pf : PrefFlow := ⟨sels.length - 1, 0, subjects, none⟩
    some ({ st with
              selections := sels
              prefFlow := some pf
              stage := "ask_mode_per_subject" },
          [.answerCallback none, .editMessage "lesson type prompt"])

/-- Parse of a digit run with the underscore rule of Python int: single
underscores strictly between digits. -/
def digitsU (acc : Nat) : List Char → Option Nat
  | [] => some acc
  | c :: rest =>
    if isDigitChar c then digitsU (acc * 10 + (c.toNat - 48)) rest
    else if c = '_' then
      match rest with
      | d :: rest2 => if isDigitChar d then digitsU (acc * 10 + (d.toNat - 48)) rest2 else none
      | [] => none
    else none

/-- A nonempty digit run with underscores. -/
def pyDigits : List Char → Option Nat
  | [] => none
  | c :: rest => if isDigitChar c then digitsU (c.toNat - 48) rest else none

/-- Python int applied to a string: strip whitespace, optional sign,
digits (ASCII model); failure is the ValueError caught by the LPW
branch. -/
def pyInt (s : String) : Option Int :=
  match stripWs s.toList with
  | '+' :: ds => (pyDigits ds).map (fun n => (n : Int))
  | '-' :: ds => (pyDigits ds).map (fun n => -(n : Int))
  | ds => (pyDigits ds).map (fun n => (n : Int))

/-- Replace or add an association (the dict write of the preference
branch). -/
def setPref (prefs : List (String × Pref)) (k : String) (v : Pref) :
    List (String × Pref) :=
  if prefs.any (fun kv => kv.1 = k) then
    prefs.map (fun kv => if kv.1 = k then (k, v) else kv)
  else prefs ++ [(k, v)]

/-- The lessons-per-week branch of the webhook handler (dispatched on an
LPW-prefixed callback).  The payload is parsed with int inside the
branch's own try block: unparseable values and integers other than 1 and 2
become 1.  Out-of-range session indices are the IndexErrors caught by the
top-level handler, modeled as none. -/
def lpwHandler (st : ChatState) (n : String) : Option (ChatState × List TgCall) :=
  match st.prefFlow with
  | none => some (st, [.answerCallback none,
                       .answerCallback (some "No subject is pending.")])
  | some pf => do
    let nInt : Int :=
      match pyInt n with
      | some v => if v = 1 || v = 2 then v else 1
      | none => 1
    let sel ← st.selections[pf.selIdx]?
    let curSubj ← pf.subjects[pf.i]?
    let sel2 := { sel with prefs := setPref sel.prefs curSubj ⟨pf.currentMode, nInt⟩ }
    let sels2 := st.selections.set pf.selIdx sel2
    let i2 := pf.i + 1
    if i2 < pf.subjects.length then
      some ({ st with
                selections := sels2
                prefFlow := some { pf with i := i2, currentMode := none }
                stage := "ask_mode_per_subject" },
            [.answerCallback none, .editMessage "lesson type prompt"])
    else
      some ({ st with
                selections := sels2
                prefFlow := none
                stage := "flow" },
            [.answerCallback none, .editMessage "preferences saved"])

/-! ## Claim-support definitions -/

/-- The value `canonical_subject` actually produces on a table entry: the
nicely-cased canonical name, except that the entries of the english
literature row other than the bare literature alias are captured by the
earlier english alias of the english language row. -/
def expectedSubject (c a : String) : String :=
  if c = "english literature" && a ≠ "literature" then "English Language"
  else niceSubjectName c

/-- A catalog record teaching core math in grades 9 and 10 for
Cambridge. -/
def mathTutor : Teacher :=
  ⟨some "t1", "Alice", ["Math (Core)"], [9, 10], ["Cambridge"]⟩

/-- A catalog record with no subject, grade or board data. -/
def anyTutor : Teacher :=
  ⟨some "t0", "Zed", [], [], []⟩

/-- The alias strings recognized by `canonical_board`. -/
def boardAliasStrings : List String :=
  ["o", "oxford", "oxfordaqa", "oxford aqa", "c", "cambridge", "e", "edexcel",
   "pearson edexcel", "pearson"]

/-- Every lessons-per-week value stored in the session is 1 or 2. -/
def lpwOk (st : ChatState) : Prop :=
  ∀ sel ∈ st.selections, ∀ kv ∈ sel.prefs, kv.2.lpw = 1 ∨ kv.2.lpw = 2

/-- The preference-walk indices of the session point into the session
(true of every state the handler itself builds). -/
def flowIdxOk (st : ChatState) : Prop :=
  match st.prefFlow with
  | none => True
  | some pf => pf.selIdx < st.selections.length ∧ pf.i < pf.subjects.length

/-- A concrete signed-token payload used by the token-machinery witnesses. -/
def c6pay : Json :=
  .obj [("user_id", .num 42), ("wa", .str "96512345"), ("text", .str "Hello")]

end Portal

namespace Portal

/-! ## Helper lemmas about the matcher -/

theorem mem_match_teachers {cat : List Teacher} {s : Option String} {g : Option Int}
    {b : Option String} {lim : Nat} {t : Teacher}
    (h : t ∈ match_teachers cat s g b lim) :
    t ∈ cat ∧ passesFilters t s g (boardCanOf b) = true := by
  unfold match_teachers at h
  have h1 : t ∈ (cat.filter (fun t => passesFilters t s g (boardCanOf b))).insertionSort nameLe :=
    List.take_subset _ _ h
  have h2 := (List.mem_insertionSort nameLe).mp h1
  exact ⟨(List.mem_filter.mp h2).1, (List.mem_filter.mp h2).2⟩

theorem match_teachers_ne_nil {cat : List Teacher} {s : Option String} {g : Option Int}
    {b : Option String} {lim : Nat} {t : Teacher}
    (hlim : 1 ≤ lim) (ht : t ∈ cat) (hp : passesFilters t s g (boardCanOf b) = true) :
    match_teachers cat s g b lim ≠ [] := by
  unfold match_teachers
  intro hnil
  rcases List.take_eq_nil_iff.mp hnil with h0 | hsort
  · omega
  · have : t ∈ (cat.filter (fun t => passesFilters t s g (boardCanOf b))).insertionSort nameLe :=
      (List.mem_insertionSort nameLe).mpr (List.mem_filter.mpr ⟨ht, hp⟩)
    rw [hsort] at this
    exact absurd this (List.not_mem_nil t)

/-! ## Claim theorems -/

/-- C1 (amended): `match_teachers` filters conjunctively and has no
score-zero fallback: for a positive limit the result is empty exactly when
no catalog record passes the subject, grade and board filters together,
and every returned record passes all of them; a record passing only the
subject filter does not prevent an empty result. -/
theorem match_teachers_conjunctive (cat : List Teacher) (s : Option String)
    (g : Option Int) (b : Option String) (lim : Nat) (hlim : 1 ≤ lim) :
    (match_teachers cat s g b lim = [] ↔
      ∀ t ∈ cat, passesFilters t s g (boardCanOf b) = false)
    ∧ ∀ t ∈ match_teachers cat s g b lim,
        t ∈ cat ∧ passesFilters t s g (boardCanOf b) = true := by
  refine ⟨⟨fun hnil t ht => ?_, fun hall => ?_⟩, fun t ht => mem_match_teachers ht⟩
  · by_contra hne
    have hp : passesFilters t s g (boardCanOf b) = true := by
      cases hpf : passesFilters t s g (boardCanOf b)
      · exact absurd hpf hne
      · rfl
    exact match_teachers_ne_nil hlim ht hp hnil
  · unfold match_teachers
    have hfil : cat.filter (fun t => passesFilters t s g (boardCanOf b)) = [] :=
      List.filter_eq_nil_iff.mpr (fun t ht => by simp [hall t ht])
    simp [hfil]

/-- C1 witness: the conjunctive characterization applied to a concrete
catalog and query. -/
theorem match_teachers_conjunctive_witness :
    (match_teachers [mathTutor] (some "math (core)") (some 11) (some "Cambridge") 4 = [] ↔
      ∀ t ∈ [mathTutor],
        passesFilters t (some "math (core)") (some 11) (boardCanOf (some "Cambridge")) = false)
    ∧ ∀ t ∈ match_teachers [mathTutor] (some "math (core)") (some 11) (some "Cambridge") 4,
        t ∈ [mathTutor] ∧
          passesFilters t (some "math (core)") (some 11) (boardCanOf (some "Cambridge")) = true :=
  match_teachers_conjunctive [mathTutor] (some "math (core)") (some 11) (some "Cambridge") 4
    (by decide)

/-- C1 counterexample: a tutor passes the subject filter, yet the call
with a grade nobody teaches returns the empty list — there is no
subject-only fallback. -/
theorem match_teachers_no_fallback_counterexample :
    teacher_has_subject mathTutor.subjects "math (core)" = true
    ∧ match_teachers [mathTutor] (some "math (core)") (some 11) (some "Cambridge") 4 = [] := by
  constructor
  · decide
  · decide

/-- C4 (amended): for a non-empty subject label, a record appears in the
match result only if the label canonicalizes and its canonical subject is
the canonicalization of one of the record's raw subject labels.  (The
empty label disables the subject filter by Python falsiness, hence the
non-emptiness hypothesis.) -/
theorem match_teachers_subject_sound (cat : List Teacher) (t : Teacher) (s : String)
    (g : Option Int) (b : Option String) (lim : Nat) (hs : s ≠ "")
    (ht : t ∈ match_teachers cat (some s) g b lim) :
    ∃ w, canonical_subject s = some w ∧ ∃ raw ∈ t.subjects, canonical_subject raw = some w := by
  have hp := (mem_match_teachers ht).2
  unfold passesFilters at hp
  simp only [Bool.and_eq_true] at hp
  have hsub : (if s = "" then true else teacher_has_subject t.subjects s) = true := hp.1.1
  rw [if_neg hs] at hsub
  unfold teacher_has_subject at hsub
  cases hc : canonical_subject s with
  | none => rw [hc] at hsub; exact absurd hsub (by simp)
  | some w =>
    rw [hc] at hsub
    rcases List.any_eq_true.mp hsub with ⟨raw, hraw, heq⟩
    exact ⟨w, rfl, raw, hraw, by simpa using heq⟩

/-- C4 witness: the soundness statement applied to a concrete match. -/
theorem match_teachers_subject_sound_witness :
    ∃ w, canonical_subject "math (core)" = some w ∧
      ∃ raw ∈ mathTutor.subjects, canonical_subject raw = some w :=
  match_teachers_subject_sound [mathTutor] mathTutor "math (core)" (some 9) (some "Cambridge") 4
    (by decide) (by decide)

/-- C4 counterexample: with the empty subject label the filter is skipped
entirely, so a record appears although the label does not canonicalize at
all. -/
theorem match_teachers_subject_counterexample :
    anyTutor ∈ match_teachers [anyTutor] (some "") none none 4
    ∧ canonical_subject "" = none := by
  constructor
  · decide
  · rfl

/-- C8 (amended): an input whose normalization matches none of the board
aliases passes through as its normalization — the lowercased input with
whitespace runs collapsed and stripped (not the lowercased input verbatim)
— and in particular the unknown board example normalizes as the claim
says. -/
theorem canonical_board_passthrough :
    (∀ s : String, pyNorm s ∉ boardAliasStrings → canonical_board s = pyNorm s)
    ∧ canonical_board "Unknown Board" = "unknown board" := by
  constructor
  · intro s h
    simp only [boardAliasStrings, List.mem_cons, List.not_mem_nil, or_false] at h
    push_neg at h
    obtain ⟨h1, h2, h3, h4, h5, h6, h7, h8, h9, h10⟩ := h
    unfold canonical_board
    simp [h1, h2, h3, h4, h5, h6, h7, h8, h9, h10]
  · decide

/-- C8 witness: the passthrough statement applied to the unknown board
example. -/
theorem canonical_board_passthrough_witness :
    pyNorm "Unknown Board" ∉ boardAliasStrings
    ∧ canonical_board "Unknown Board" = pyNorm "Unknown Board" :=
  ⟨by decide, (canonical_board_passthrough).1 "Unknown Board" (by decide)⟩

/-- C8 counterexample: on input with an inner double space the result is
the whitespace-collapsed text, not the lowercased input unchanged. -/
theorem canonical_board_counterexample :
    canonical_board "a  b" = "a b" ∧ pyLower "a  b" = "a  b" ∧ "a b" ≠ "a  b" := by
  refine ⟨by decide, by decide, by decide⟩

/-- C2 (amended): over every entry of the subject table, the
canonicalization of each alias and the idempotence on the nicely-cased
canonical name hold exactly up to the english-literature exception:
the canonical label english literature itself and its alias english fl
(and hence the nicely-cased English Literature) are captured by the
whole-word match of the earlier english alias of english language;
the alias literature and every entry of every other row canonicalize to
their own nicely-cased canonical name. -/
theorem canonical_subject_table_spec :
    (VALID_SUBJECTS.all (fun ca =>
        (ca.1 :: ca.2).all (fun a => canonical_subject a == some (expectedSubject ca.1 a)))
      && VALID_SUBJECTS.all (fun ca =>
        canonical_subject (niceSubjectName ca.1) == some (expectedSubject ca.1 ca.1))) = true := by
  decide

/-! Loop invariants of the aggregation in `collect_best_matches`. -/

theorem collectInner_length {k : Nat} {ts : List Teacher} {seen : List String}
    {out : List Teacher} (h : out.length < k) :
    (collectInner k seen out ts).2.1.length ≤ k := by
  induction ts generalizing seen out with
  | nil => exact Nat.le_of_lt h
  | cons t rest ih =>
    unfold collectInner
    by_cases hseen : dedupKey t ∈ seen
    · simp only [if_pos hseen]
      exact ih h
    · simp only [if_neg hseen]
      by_cases hfull : k ≤ (out ++ [t]).length
      · simp only [if_pos hfull]
        simp only [List.length_append, List.length_cons, List.length_nil]
        omega
      · simp only [if_neg hfull]
        exact ih (by omega)

theorem collectInner_length_of_false {k : Nat} {ts : List Teacher} {seen : List String}
    {out : List Teacher} (h : out.length < k)
    (hf : (collectInner k seen out ts).2.2 = false) :
    (collectInner k seen out ts).2.1.length < k := by
  induction ts generalizing seen out with
  | nil => exact h
  | cons t rest ih =>
    unfold collectInner at hf ⊢
    by_cases hseen : dedupKey t ∈ seen
    · simp only [if_pos hseen] at hf ⊢
      exact ih h hf
    · simp only [if_neg hseen] at hf ⊢
      by_cases hfull : k ≤ (out ++ [t]).length
      · simp only [if_pos hfull] at hf
        exact absurd hf (by decide)
      · simp only [if_neg hfull] at hf ⊢
        exact ih (by omega) hf

theorem collectInner_nodup {k : Nat} {ts : List Teacher} {seen : List String}
    {out : List Teacher}
    (hnd : (out.map dedupKey).Nodup) (hsub : ∀ x ∈ out.map dedupKey, x ∈ seen) :
    ((collectInner k seen out ts).2.1.map dedupKey).Nodup
    ∧ ∀ x ∈ (collectInner k seen out ts).2.1.map dedupKey,
        x ∈ (collectInner k seen out ts).1 := by
  induction ts generalizing seen out with
  | nil => exact ⟨hnd, hsub⟩
  | cons t rest ih =>
    unfold collectInner
    by_cases hseen : dedupKey t ∈ seen
    · simp only [if_pos hseen]
      exact ih hnd hsub
    · simp only [if_neg hseen]
      have hnotout : dedupKey t ∉ out.map dedupKey := fun hmem => hseen (hsub _ hmem)
      have hnd2 : ((out ++ [t]).map dedupKey).Nodup := by
        simp only [List.map_append, List.map_cons, List.map_nil]
        rw [List.nodup_append]
        exact ⟨hnd, List.nodup_singleton _, by
          intro x hx hy
          simp only [List.mem_singleton] at hy
          subst hy
          exact hnotout hx⟩
      have hsub2 : ∀ x ∈ (out ++ [t]).map dedupKey, x ∈ dedupKey t :: seen := by
        intro x hx
        simp only [List.map_append, List.map_cons, List.map_nil, List.mem_append,
          List.mem_singleton] at hx
        rcases hx with hx | hx
        · exact List.mem_cons_of_mem _ (hsub x hx)
        · subst hx
          exact List.mem_cons_self _ _
      by_cases hfull : k ≤ (out ++ [t]).length
      · simp only [if_pos hfull]
        exact ⟨hnd2, hsub2⟩
      · simp only [if_neg hfull]
        exact ih hnd2 hsub2

theorem collectInner_provenance {k : Nat} {ts : List Teacher} {seen : List String}
    {out : List Teacher} {x : Teacher}
    (hx : x ∈ (collectInner k seen out ts).2.1) : x ∈ out ∨ x ∈ ts := by
  induction ts generalizing seen out with
  | nil => exact Or.inl hx
  | cons t rest ih =>
    unfold collectInner at hx
    by_cases hseen : dedupKey t ∈ seen
    · simp only [if_pos hseen] at hx
      rcases ih hx with h | h
      · exact Or.inl h
      · exact Or.inr (List.mem_cons_of_mem _ h)
    · simp only [if_neg hseen] at hx
      by_cases hfull : k ≤ (out ++ [t]).length
      · simp only [if_pos hfull] at hx
        rcases List.mem_append.mp hx with h | h
        · exact Or.inl h
        · simp only [List.mem_singleton] at h
          subst h
          exact Or.inr (List.mem_cons_self _ _)
      · simp only [if_neg hfull] at hx
        rcases ih hx with h | h
        · rcases List.mem_append.mp h with h2 | h2
          · exact Or.inl h2
          · simp only [List.mem_singleton] at h2
            subst h2
            exact Or.inr (List.mem_cons_self _ _)
        · exact Or.inr (List.mem_cons_of_mem _ h)

theorem collectOuter_spec {cat : List Teacher} {grade : Int} {board : String} {k : Nat}
    {subjects : List String} {seen : List String} {out : List Teacher}
    (hlen : out.length < k) (hnd : (out.map dedupKey).Nodup)
    (hsub : ∀ x ∈ out.map dedupKey, x ∈ seen) :
    (collectOuter cat grade board k seen out subjects).length ≤ k
    ∧ ((collectOuter cat grade board k seen out subjects).map dedupKey).Nodup
    ∧ ∀ x ∈ collectOuter cat grade board k seen out subjects,
        x ∈ out ∨ ∃ s ∈ subjects, x ∈ match_teachers cat (some s) (some grade) (some board) 3 := by
  induction subjects generalizing seen out with
  | nil => exact ⟨Nat.le_of_lt hlen, hnd, fun x hx => Or.inl hx⟩
  | cons s rest ih =>
    unfold collectOuter
    rcases hres : collectInner k seen out
        (match_teachers cat (some s) (some grade) (some board) 3) with ⟨seen2, out2, flag⟩
    have hnodup := @collectInner_nodup k
      (match_teachers cat (some s) (some grade) (some board) 3) seen out hnd hsub
    rw [hres] at hnodup
    cases flag with
    | true =>
      simp only
      have hlen2 := @collectInner_length k
        (match_teachers cat (some s) (some grade) (some board) 3) seen out hlen
      rw [hres] at hlen2
      refine ⟨hlen2, hnodup.1, fun x hx => ?_⟩
      have := @collectInner_provenance k
        (match_teachers cat (some s) (some grade) (some board) 3) seen out x
        (by rw [hres]; exact hx)
      rcases this with h | h
      · exact Or.inl h
      · exact Or.inr ⟨s, List.mem_cons_self _ _, h⟩
    | false =>
      simp only
      have hlen2 := @collectInner_length_of_false k
        (match_teachers cat (some s) (some grade) (some board) 3) seen out hlen
        (by rw [hres])
      rw [hres] at hlen2
      obtain ⟨h1, h2, h3⟩ := ih hlen2 hnodup.1 hnodup.2
      refine ⟨h1, h2, fun x hx => ?_⟩
      rcases h3 x hx with h | ⟨s2, hs2, hm⟩
      · have := @collectInner_provenance k
          (match_teachers cat (some s) (some grade) (some board) 3) seen out x
          (by rw [hres]; exact h)
        rcases this with h4 | h4
        · exact Or.inl h4
        · exact Or.inr ⟨s, List.mem_cons_self _ _, h4⟩
      · exact Or.inr ⟨s2, List.mem_cons_of_mem _ hs2, hm⟩

/-- C5 (amended): for a positive bound k, the aggregation returns at most
k records, never two records with the same dedup key, and every returned
record comes from the per-subject match of one of the requested subjects
with its fixed per-subject limit of 3.  (With k = 0 the source's
post-append check makes it return one record, hence the positivity
hypothesis.) -/
theorem collect_best_matches_spec (cat : List Teacher) (subjects : List String)
    (grade : Int) (board : String) (k : Nat) (hk : 1 ≤ k) :
    (collect_best_matches cat subjects grade board k).length ≤ k
    ∧ ((collect_best_matches cat subjects grade board k).map dedupKey).Nodup
    ∧ ∀ x ∈ collect_best_matches cat subjects grade board k,
        ∃ s ∈ subjects, x ∈ match_teachers cat (some s) (some grade) (some board) 3 := by
  obtain ⟨h1, h2, h3⟩ := @collectOuter_spec cat grade board k subjects [] []
    (by simpa using hk) (by simp) (by simp)
  refine ⟨h1, h2, fun x hx => ?_⟩
  rcases h3 x hx with h | h
  · exact absurd h (List.not_mem_nil x)
  · exact h

/-- C5 witness: the aggregation specification applied to a concrete
catalog and request. -/
theorem collect_best_matches_spec_witness :
    (collect_best_matches [mathTutor] ["math (core)"] 9 "Cambridge" 4).length ≤ 4
    ∧ ((collect_best_matches [mathTutor] ["math (core)"] 9 "Cambridge" 4).map dedupKey).Nodup
    ∧ ∀ x ∈ collect_best_matches [mathTutor] ["math (core)"] 9 "Cambridge" 4,
        ∃ s ∈ ["math (core)"], x ∈ match_teachers [mathTutor] (some s) (some 9) (some "Cambridge") 3 :=
  collect_best_matches_spec [mathTutor] ["math (core)"] 9 "Cambridge" 4 (by decide)

/-- C5 counterexample: with bound zero the source checks the bound only
after appending, so one record is returned — more than k. -/
theorem collect_best_matches_counterexample :
    ¬ ((collect_best_matches [mathTutor] ["math (core)"] 9 "Cambridge" 0).length ≤ 0) := by
  decide

/-- C3: the idempotency guard is never consulted by the
subject-selection-complete branch.  Delivering the identical Done
callback twice, one second apart (well inside the 300 second window the
unused `already_done` helper would enforce — as its evaluation in the
first conjunct shows), performs the side-effecting result transition both
times: each delivery edits the message into the preference prompt and a
second selection record is appended. -/
theorem done_redelivery_not_suppressed :
    (already_done (already_done [] "D|C|9|MTH_CORE" 0).2 "D|C|9|MTH_CORE" 1).1 = true
    ∧ ∃ st1 calls1 st2 calls2,
        doneHandler ⟨"flow", "Student", [], none, []⟩ "C" 9 "MTH_CORE" 0 = some (st1, calls1)
        ∧ doneHandler st1 "C" 9 "MTH_CORE" 1 = some (st2, calls2)
        ∧ calls1.count (.editMessage "lesson type prompt") = 1
        ∧ calls2.count (.editMessage "lesson type prompt") = 1
        ∧ st2.selections.length = 2 := by
  exact ⟨by decide, _, _, _, _, rfl, rfl, by decide, by decide, by decide⟩

/-- C10: whatever the LPW callback payload is, the handler stores only a
lessons-per-week value of 1 or 2 (unparseable payloads and out-of-range
integers become 1), and on a session whose preference-walk indices are
in range it never fails: the invariant that all stored values are 1 or 2
is preserved. -/
theorem lpw_stores_one_or_two (st : ChatState) (n : String)
    (hidx : flowIdxOk st) (hok : lpwOk st) :
    ∃ st2 calls, lpwHandler st n = some (st2, calls) ∧ lpwOk st2 := by
  unfold lpwHandler
  cases hpf : st.prefFlow with
  | none => exact ⟨st, _, rfl, hok⟩
  | some pf =>
    unfold flowIdxOk at hidx
    rw [hpf] at hidx
    obtain ⟨hsel, hi⟩ := hidx
    have hget1 : st.selections[pf.selIdx]? = some st.selections[pf.selIdx] :=
      List.getElem?_eq_getElem hsel
    have hget2 : pf.subjects[pf.i]? = some pf.subjects[pf.i] :=
      List.getElem?_eq_getElem hi
    set nInt : Int := (match pyInt n with
      | some v => if v = 1 || v = 2 then v else 1
      | none => 1) with hnInt
    have hval : nInt = 1 ∨ nInt = 2 := by
      rw [hnInt]
      cases hp : pyInt n with
      | none => exact Or.inl rfl
      | some v =>
        simp only
        by_cases h1 : v = 1 || v = 2
        · rw [if_pos h1]
          simp only [Bool.or_eq_true, decide_eq_true_eq] at h1
          exact h1
        · rw [if_neg h1]
          exact Or.inl rfl
    have hok2 : ∀ sel2 ∈ st.selections.set pf.selIdx
        { st.selections[pf.selIdx] with
            prefs := setPref st.selections[pf.selIdx].prefs pf.subjects[pf.i]
                      ⟨pf.currentMode, nInt⟩ },
        ∀ kv ∈ sel2.prefs, kv.2.lpw = 1 ∨ kv.2.lpw = 2 := by
      intro sel2 hmem kv hkv
      rcases List.mem_or_eq_of_mem_set hmem with hold | hnew
      · exact hok sel2 hold kv hkv
      · subst hnew
        simp only at hkv
        unfold setPref at hkv
        by_cases hhas : st.selections[pf.selIdx].prefs.any
            (fun kv => kv.1 = pf.subjects[pf.i])
        · rw [if_pos hhas] at hkv
          rcases List.mem_map.mp hkv with ⟨kv0, hkv0, heq⟩
          by_cases hkey : kv0.1 = pf.subjects[pf.i]
          · rw [if_pos hkey] at heq
            subst heq
            exact hval
          · rw [if_neg hkey] at heq
            subst heq
            exact hok _ (List.getElem_mem hsel) kv0 hkv0
        · rw [if_neg hhas] at hkv
          rcases List.mem_append.mp hkv with hold2 | hnew2
          · exact hok _ (List.getElem_mem hsel) kv hold2
          · simp only [List.mem_singleton] at hnew2
            subst hnew2
            exact hval
    simp only [hget1, hget2, Option.bind_eq_bind, Option.some_bind]
    by_cases hcont : pf.i + 1 < pf.subjects.length
    · rw [if_pos hcont]
      refine ⟨_, _, rfl, ?_⟩
      intro sel2 hmem kv hkv
      exact hok2 sel2 hmem kv hkv
    · rw [if_neg hcont]
      refine ⟨_, _, rfl, ?_⟩
      intro sel2 hmem kv hkv
      exact hok2 sel2 hmem kv hkv

/-- C10 witness: the invariant applied to a concrete session and a
malformed payload. -/
theorem lpw_stores_one_or_two_witness :
    ∃ st2 calls,
      lpwHandler ⟨"ask_lpw_per_subject", "Student",
        [⟨"C", 9, ["Math (Core)"], []⟩],
        some ⟨0, 0, ["Math (Core)"], some "1:1"⟩, []⟩ "weird7" = some (st2, calls)
      ∧ lpwOk st2 :=
  lpw_stores_one_or_two
    ⟨"ask_lpw_per_subject", "Student", [⟨"C", 9, ["Math (Core)"], []⟩],
      some ⟨0, 0, ["Math (Core)"], some "1:1"⟩, []⟩ "weird7"
    (by constructor <;> decide) (by intro sel hs kv hkv; simp at hs; subst hs; simp at hkv)

/-! Order properties of the Python string comparison. -/

theorem charListLe_refl : ∀ a : List Char, charListLe a a = true := by
  intro a
  induction a with
  | nil => rfl
  | cons x xs ih =>
    unfold charListLe
    rw [if_pos rfl]
    exact ih

theorem charListLe_total : ∀ a b : List Char, charListLe a b = true ∨ charListLe b a = true := by
  intro a
  induction a with
  | nil => intro b; exact Or.inl rfl
  | cons x xs ih =>
    intro b
    cases b with
    | nil => exact Or.inr rfl
    | cons y ys =>
      unfold charListLe
      by_cases hxy : x = y
      · subst hxy
        rw [if_pos rfl, if_pos rfl]
        exact ih ys
      · rw [if_neg hxy, if_neg (Ne.symm hxy)]
        rcases lt_or_gt_of_ne hxy with h | h
        · exact Or.inl (decide_eq_true h)
        · exact Or.inr (decide_eq_true h)

theorem charListLe_trans : ∀ a b c : List Char,
    charListLe a b = true → charListLe b c = true → charListLe a c = true := by
  intro a
  induction a with
  | nil => intro b c _ _; rfl
  | cons x xs ih =>
    intro b c hab hbc
    cases b with
    | nil => simp [charListLe] at hab
    | cons y ys =>
      cases c with
      | nil => simp [charListLe] at hbc
      | cons z zs =>
        unfold charListLe at hab hbc ⊢
        by_cases hxy : x = y
        · subst hxy
          rw [if_pos rfl] at hab
          by_cases hyz : x = z
          · subst hyz
            rw [if_pos rfl] at hbc ⊢
            exact ih ys zs hab hbc
          · rw [if_neg hyz] at hbc ⊢
            exact hbc
        · rw [if_neg hxy] at hab
          by_cases hyz : y = z
          · subst hyz
            rw [if_neg hxy]
            exact hab
          · rw [if_neg hyz] at hbc
            have hlt : x < z :=
              lt_trans (of_decide_eq_true hab) (of_decide_eq_true hbc)
            rw [if_neg (ne_of_lt hlt)]
            exact decide_eq_true hlt

theorem charListLe_antisymm : ∀ a b : List Char,
    charListLe a b = true → charListLe b a = true → a = b := by
  intro a
  induction a with
  | nil =>
    intro b _ hba
    cases b with
    | nil => rfl
    | cons y ys => simp [charListLe] at hba
  | cons x xs ih =>
    intro b hab hba
    cases b with
    | nil => simp [charListLe] at hab
    | cons y ys =>
      unfold charListLe at hab hba
      by_cases hxy : x = y
      · subst hxy
        rw [if_pos rfl] at hab hba
        rw [ih ys hab hba]
      · rw [if_neg hxy] at hab
        rw [if_neg (Ne.symm hxy)] at hba
        exact absurd (lt_trans (of_decide_eq_true hab) (of_decide_eq_true hba))
          (lt_irrefl x)

instance : IsTotal String strLeP :=
  ⟨fun a b => charListLe_total a.toList b.toList⟩

instance : IsTrans String strLeP :=
  ⟨fun a b c => charListLe_trans a.toList b.toList c.toList⟩

theorem string_toList_inj {a b : String} (h : a.toList = b.toList) : a = b := by
  cases a
  cases b
  exact congrArg String.mk h

instance : IsAntisymm String strLeP :=
  ⟨fun a b hab hba => string_toList_inj (charListLe_antisymm a.toList b.toList hab hba)⟩

/-! Split and join lemmas for the selection codec. -/

theorem splitDotChars_no_dot {l : List Char} (h : '.' ∉ l) : splitDotChars l = [l] := by
  induction l with
  | nil => rfl
  | cons c rest ih =>
    rw [splitDotChars]
    rw [if_neg (fun he => h (List.mem_cons.mpr (Or.inl he.symm)))]
    rw [ih (fun hm => h (List.mem_cons_of_mem c hm))]

theorem splitDotChars_append {l rest : List Char} (h : '.' ∉ l) :
    splitDotChars (l ++ '.' :: rest) = l :: splitDotChars rest := by
  induction l with
  | nil =>
    simp only [List.nil_append]
    rw [splitDotChars]
    rw [if_pos rfl]
  | cons c l2 ih =>
    simp only [List.cons_append]
    rw [splitDotChars]
    rw [if_neg (fun he => h (List.mem_cons.mpr (Or.inl he.symm)))]
    rw [ih (fun hm => h (List.mem_cons_of_mem c hm))]

theorem splitDot_dotJoin {parts : List (List Char)} (hne : parts ≠ [])
    (hdot : ∀ p ∈ parts, '.' ∉ p) :
    splitDotChars (dotJoin parts) = parts := by
  induction parts with
  | nil => exact absurd rfl hne
  | cons p rest ih =>
    cases rest with
    | nil => exact splitDotChars_no_dot (hdot p (List.mem_cons_self p []))
    | cons q rest2 =>
      unfold dotJoin
      rw [splitDotChars_append (hdot p (List.mem_cons_self p _))]
      rw [ih (List.cons_ne_nil q rest2) (fun x hx => hdot x (List.mem_cons_of_mem p hx))]

/-- C9: for a duplicate-free selection of non-empty dot-free codes, the
decode of the encode is exactly the selection sorted ascending (hence
equal as a set to the selection and listed in sorted order), and the
encoding is determined by the selection as a set: any two duplicate-free
lists with the same element set encode to the same callback string. -/
theorem encode_decode_sel_spec (sel : List String) (hnd : sel.Nodup)
    (helem : ∀ x ∈ sel, x ≠ "" ∧ '.' ∉ x.toList) :
    decode_sel (encode_sel sel) = sel.insertionSort strLeP
    ∧ (decode_sel (encode_sel sel)).toFinset = sel.toFinset
    ∧ List.Sorted strLeP (decode_sel (encode_sel sel))
    ∧ ∀ sel2 : List String, sel2.Nodup → sel.toFinset = sel2.toFinset →
        encode_sel sel = encode_sel sel2 := by
  have hsortmem : ∀ x ∈ sel.insertionSort strLeP, x ∈ sel :=
    fun x hx => (List.mem_insertionSort strLeP).mp hx
  have hmain : decode_sel (encode_sel sel) = sel.insertionSort strLeP := by
    by_cases hemp : sel.isEmpty
    · have : sel = [] := List.isEmpty_iff.mp hemp
      subst this
      rfl
    · unfold encode_sel decode_sel splitDot
      rw [if_neg hemp]
      have htl : (String.mk (dotJoin ((sel.insertionSort strLeP).map String.toList))).toList
          = dotJoin ((sel.insertionSort strLeP).map String.toList) := rfl
      rw [htl]
      have hne : (sel.insertionSort strLeP).map String.toList ≠ [] := by
        intro h
        have : sel.insertionSort strLeP = [] := List.map_eq_nil_iff.mp h
        have hperm := List.perm_insertionSort strLeP sel
        rw [this] at hperm
        have : sel = [] := hperm.symm.eq_nil
        rw [this] at hemp
        exact hemp rfl
      have hdotfree : ∀ p ∈ (sel.insertionSort strLeP).map String.toList, '.' ∉ p := by
        intro p hp
        rcases List.mem_map.mp hp with ⟨x, hx, hfx⟩
        subst hfx
        exact (helem x (hsortmem x hx)).2
      rw [splitDot_dotJoin hne hdotfree]
      rw [List.map_map]
      have hid : ∀ x ∈ sel.insertionSort strLeP, (String.mk ∘ String.toList) x = x := by
        intro x _
        cases x
        rfl
      rw [(List.map_congr_left hid).trans (List.map_id _)]
      apply List.filter_eq_self.mpr
      intro a ha
      have := (helem a (hsortmem a ha)).1
      simpa using this
  have hperm := List.perm_insertionSort strLeP sel
  refine ⟨hmain, ?_, ?_, ?_⟩
  · rw [hmain]
    ext a
    simp only [List.mem_toFinset]
    exact hperm.mem_iff
  · rw [hmain]
    exact List.sorted_insertionSort strLeP sel
  · intro sel2 hnd2 hset
    have hpm : sel.Perm sel2 := List.perm_of_nodup_nodup_toFinset_eq hnd hnd2 hset
    have hsorteq : sel.insertionSort strLeP = sel2.insertionSort strLeP := by
      apply List.eq_of_perm_of_sorted
        ((List.perm_insertionSort strLeP sel).trans
          (hpm.trans (List.perm_insertionSort strLeP sel2).symm))
        (List.sorted_insertionSort strLeP sel)
        (List.sorted_insertionSort strLeP sel2)
    unfold encode_sel
    by_cases hemp : sel.isEmpty
    · have h1 : sel = [] := List.isEmpty_iff.mp hemp
      rw [h1] at hpm
      have h2 : sel2 = [] := hpm.symm.eq_nil
      rw [h1, h2]
    · have h2 : ¬ sel2.isEmpty := by
        intro h
        have : sel2 = [] := List.isEmpty_iff.mp h
        rw [this] at hpm
        have : sel = [] := hpm.eq_nil
        rw [this] at hemp
        exact hemp rfl
      rw [if_neg hemp, if_neg h2, hsorteq]

/-- C9 witness: the codec specification applied to a concrete selection
set. -/
theorem encode_decode_sel_spec_witness :
    decode_sel (encode_sel ["MTH_CORE", "BIO_CORE"]) =
      (["MTH_CORE", "BIO_CORE"] : List String).insertionSort strLeP
    ∧ (decode_sel (encode_sel ["MTH_CORE", "BIO_CORE"])).toFinset =
        (["MTH_CORE", "BIO_CORE"] : List String).toFinset
    ∧ List.Sorted strLeP (decode_sel (encode_sel ["MTH_CORE", "BIO_CORE"]))
    ∧ ∀ sel2 : List String, sel2.Nodup →
        (["MTH_CORE", "BIO_CORE"] : List String).toFinset = sel2.toFinset →
        encode_sel ["MTH_CORE", "BIO_CORE"] = encode_sel sel2 :=
  encode_decode_sel_spec ["MTH_CORE", "BIO_CORE"] (by decide)
    (by intro x hx; fin_cases hx <;> exact ⟨by decide, by decide⟩)

/-- C2 counterexample: english literature is a canonical key of the table,
yet its canonicalization is English Language, not its own nicely-cased
name — refuting alias-completeness and idempotence as claimed. -/
theorem canonical_subject_counterexample :
    (VALID_SUBJECTS.any (fun ca => ca.1 = "english literature")) = true
    ∧ canonical_subject "english literature" = some "English Language"
    ∧ niceSubjectName "english literature" = "English Literature"
    ∧ canonical_subject "English Literature" = some "English Language"
    ∧ ("English Language" : String) ≠ "English Literature" := by
  refine ⟨by decide, by decide, by decide, by decide, by decide⟩

/-! ## Token machinery lemmas (base64, split, bytes, JSON round trip) -/

theorem decB64_encB64 : ∀ v : Nat, v < 64 → decB64 (encB64 v) = some v := by decide

theorem encB64_ne_dot (v : Nat) : encB64 v ≠ '.' := by
  unfold encB64
  rw [List.getD_eq_getElem?_getD]
  cases h : b64Alphabet[v]? with
  | none => simp
  | some c =>
    have hc : c ∈ b64Alphabet := List.getElem?_mem h
    simp only [Option.getD_some]
    intro he
    subst he
    exact absurd hc (by decide)

theorem b64Core_no_dot : ∀ bs : List Nat, '.' ∉ b64Core bs := by
  intro bs
  induction bs using b64Core.induct with
  | case1 => simp [b64Core]
  | case2 b0 =>
    simp only [b64Core, List.mem_cons, List.not_mem_nil, or_false]
    rintro (h | h) <;> exact (encB64_ne_dot _ h.symm)
  | case3 b0 b1 =>
    simp only [b64Core, List.mem_cons, List.not_mem_nil, or_false]
    rintro (h | h | h) <;> exact (encB64_ne_dot _ h.symm)
  | case4 b0 b1 b2 rest ih =>
    simp only [b64Core, List.mem_cons]
    rintro (h | h | h | h | h)
    · exact encB64_ne_dot _ h.symm
    · exact encB64_ne_dot _ h.symm
    · exact encB64_ne_dot _ h.symm
    · exact encB64_ne_dot _ h.symm
    · exact ih h

theorem b64_roundtrip : ∀ bs : List Nat, (∀ b ∈ bs, b < 256) →
    b64DecCore (b64Core bs) = some bs := by
  intro bs
  induction bs using b64Core.induct with
  | case1 => intro _; rfl
  | case2 b0 =>
    intro hb
    have h0 : b0 < 256 := hb b0 (by simp)
    simp only [b64Core, b64DecCore]
    rw [decB64_encB64 _ (by omega), decB64_encB64 _ (by omega)]
    simp only [Option.bind_eq_bind, Option.some_bind, Option.some.injEq, List.cons.injEq,
      and_true]
    omega
  | case3 b0 b1 =>
    intro hb
    have h0 : b0 < 256 := hb b0 (by simp)
    have h1 : b1 < 256 := hb b1 (by simp)
    simp only [b64Core, b64DecCore]
    rw [decB64_encB64 _ (by omega), decB64_encB64 _ (by omega), decB64_encB64 _ (by omega)]
    simp only [Option.bind_eq_bind, Option.some_bind, Option.some.injEq, List.cons.injEq,
      and_true]
    exact ⟨by omega, by omega⟩
  | case4 b0 b1 b2 rest ih =>
    intro hb
    have h0 : b0 < 256 := hb b0 (by simp)
    have h1 : b1 < 256 := hb b1 (by simp)
    have h2 : b2 < 256 := hb b2 (by simp)
    have hrest : ∀ b ∈ rest, b < 256 := fun b hbm => hb b (by simp [hbm])
    simp only [b64Core, b64DecCore]
    rw [decB64_encB64 _ (by omega), decB64_encB64 _ (by omega), decB64_encB64 _ (by omega),
      decB64_encB64 _ (by omega)]
    simp only [Option.bind_eq_bind, Option.some_bind, ih hrest, Option.some.injEq,
      List.cons.injEq]
    exact ⟨by omega, by omega, by omega, trivial⟩

/-! splitOnce lemmas -/

theorem splitOnce_append {a b : List Char} (h : '.' ∉ a) :
    splitOnce '.' (a ++ '.' :: b) = some (a, b) := by
  induction a with
  | nil =>
    simp only [List.nil_append]
    unfold splitOnce
    rw [if_pos rfl]
  | cons c a2 ih =>
    simp only [List.cons_append]
    unfold splitOnce
    rw [if_neg (fun he => h (List.mem_cons.mpr (Or.inl he.symm)))]
    rw [ih (fun hm => h (List.mem_cons_of_mem c hm))]
    rfl

theorem splitOnce_none {l : List Char} (h : '.' ∉ l) : splitOnce '.' l = none := by
  induction l with
  | nil => rfl
  | cons c l2 ih =>
    unfold splitOnce
    rw [if_neg (fun he => h (List.mem_cons.mpr (Or.inl he.symm)))]
    rw [ih (fun hm => h (List.mem_cons_of_mem c hm))]
    rfl

/-! ASCII byte lemmas -/

theorem asciiDecode_asciiBytes {s : String} (h : ∀ c ∈ s.toList, c.toNat < 128) :
    asciiDecode (asciiBytes s) = some s := by
  unfold asciiDecode asciiBytes
  rw [if_pos]
  · congr 1
    rw [List.map_map]
    have hid : ∀ c ∈ s.toList, (Char.ofNat ∘ Char.toNat) c = c :=
      fun c _ => Char.ofNat_toNat c
    rw [(List.map_congr_left hid).trans (List.map_id _)]
    cases s
    rfl
  · rw [List.all_eq_true]
    intro b hb
    rcases List.mem_map.mp hb with ⟨c, hc, hbc⟩
    subst hbc
    exact decide_eq_true (h c hc)

theorem asciiBytes_lt {s : String} (h : ∀ c ∈ s.toList, c.toNat < 128) :
    ∀ b ∈ asciiBytes s, b < 256 := by
  intro b hb
  rcases List.mem_map.mp hb with ⟨c, hc, hbc⟩
  subst hbc
  exact lt_trans (h c hc) (by omega)

/-! Hash output bounds -/

theorem foldr_wordBytes_lt (ws : List Nat) :
    ∀ b ∈ ws.foldr (fun w acc => wordBytes w ++ acc) [], b < 256 := by
  induction ws with
  | nil => simp
  | cons w rest ih =>
    intro b hb
    simp only [List.foldr_cons, List.mem_append] at hb
    rcases hb with hb | hb
    · unfold wordBytes at hb
      simp only [List.mem_cons, List.not_mem_nil, or_false] at hb
      rcases hb with h | h | h | h <;> (subst h; exact Nat.mod_lt _ (by omega))
    · exact ih b hb

theorem sha256_lt (m : List Nat) : ∀ b ∈ sha256 m, b < 256 :=
  foldr_wordBytes_lt _

theorem hmacSha256_lt (key m : List Nat) : ∀ b ∈ hmacSha256 key m, b < 256 :=
  foldr_wordBytes_lt _

/-! Decimal number lemmas -/

theorem charOfNat_toNat_small : ∀ m : Nat, m < 128 → (Char.ofNat m).toNat = m := by decide

theorem digit_char_of_lt : ∀ n : Nat, n < 10 → isDigitChar (Char.ofNat (48 + n)) = true := by
  decide

theorem natDumpF_spec : ∀ fuel n : Nat, n < fuel →
    ∃ c cs, natDumpF fuel n = c :: cs ∧ ∀ d ∈ c :: cs, isDigitChar d = true := by
  intro fuel
  induction fuel with
  | zero => intro n h; omega
  | succ f ih =>
    intro n h
    unfold natDumpF
    by_cases h10 : n < 10
    · rw [if_pos h10]
      refine ⟨_, [], rfl, ?_⟩
      intro d hd
      simp only [List.mem_singleton] at hd
      subst hd
      exact digit_char_of_lt n h10
    · rw [if_neg h10]
      obtain ⟨c, cs, heq, hdig⟩ := ih (n / 10) (by omega)
      rw [heq]
      refine ⟨c, cs ++ [Char.ofNat (48 + n % 10)], by simp, ?_⟩
      intro d hd
      rcases List.mem_cons.mp hd with hd | hd
      · exact hdig d (List.mem_cons.mpr (Or.inl hd))
      · rcases List.mem_append.mp hd with hd | hd
        · exact hdig d (List.mem_cons.mpr (Or.inr hd))
        · simp only [List.mem_singleton] at hd
          subst hd
          exact digit_char_of_lt _ (by omega)

theorem digitsAcc_spec {ds rest : List Char} (hds : ∀ d ∈ ds, isDigitChar d = true)
    (hrest : notDigitStart rest) :
    ∀ acc, digitsAcc acc (ds ++ rest) =
      (ds.foldl (fun a c => a * 10 + (c.toNat - 48)) acc, rest) := by
  induction ds with
  | nil =>
    intro acc
    cases rest with
    | nil => rfl
    | cons r rs =>
      simp only [List.nil_append]
      unfold digitsAcc
      rw [if_neg]
      · rfl
      · rw [hrest r rfl]
        exact Bool.false_ne_true
  | cons d ds2 ih =>
    intro acc
    simp only [List.cons_append]
    unfold digitsAcc
    rw [if_pos (hds d (List.mem_cons_self d ds2))]
    rw [ih (fun x hx => hds x (List.mem_cons_of_mem d hx))]
    rfl

theorem digitFold_natDumpF : ∀ fuel n acc : Nat, n < fuel →
    (natDumpF fuel n).foldl (fun a c => a * 10 + (c.toNat - 48)) acc
      = acc * 10 ^ (natDumpF fuel n).length + n := by
  intro fuel
  induction fuel with
  | zero => intro n acc h; omega
  | succ f ih =>
    intro n acc h
    unfold natDumpF
    by_cases h10 : n < 10
    · rw [if_pos h10]
      simp only [List.foldl_cons, List.foldl_nil, List.length_singleton, pow_one]
      rw [charOfNat_toNat_small (48 + n) (by omega)]
      omega
    · rw [if_neg h10]
      rw [List.foldl_append]
      rw [ih (n / 10) acc (by omega)]
      simp only [List.foldl_cons, List.foldl_nil, List.length_append,
        List.length_singleton]
      rw [charOfNat_toNat_small (48 + n % 10) (by omega)]
      rw [pow_succ]
      have hmod : 48 + n % 10 - 48 = n % 10 := by omega
      rw [hmod]
      have : n / 10 * 10 + n % 10 = n := by omega
      ring_nf
      omega

theorem digit_ne_chars {c : Char} (h : isDigitChar c = true) :
    c ≠ '-' ∧ c ≠ 'n' ∧ c ≠ 't' ∧ c ≠ 'f' ∧ c ≠ '"' ∧ c ≠ '[' ∧ c ≠ '\x7b' := by
  refine ⟨?_, ?_, ?_, ?_, ?_, ?_, ?_⟩ <;>
    (intro he; subst he; exact absurd h (by decide))

theorem pDigits_natDump {n : Nat} {rest : List Char} (hrest : notDigitStart rest) :
    pDigits (natDump n ++ rest) = some (n, rest) := by
  obtain ⟨c, cs, heq, hdig⟩ := natDumpF_spec (n + 1) n (by omega)
  have heq2 : natDump n = c :: cs := heq
  rw [heq2]
  simp only [List.cons_append]
  rw [pDigits]
  rw [if_pos (hdig c (List.mem_cons_self c cs))]
  rw [digitsAcc_spec (fun x hx => hdig x (List.mem_cons_of_mem c hx)) hrest]
  have h0 := digitFold_natDumpF (n + 1) n 0 (by omega)
  rw [heq] at h0
  simp only [List.foldl_cons, Nat.zero_mul, Nat.zero_add] at h0
  rw [h0]

theorem pNum_intDump {n : Int} {rest : List Char} (hrest : notDigitStart rest) :
    pNum (intDump n ++ rest) = some (n, rest) := by
  unfold intDump
  by_cases hneg : n < 0
  · rw [if_pos hneg]
    simp only [List.cons_append]
    rw [pNum]
    rw [if_pos rfl]
    rw [pDigits_natDump hrest]
    show some (-((n.natAbs : Nat) : Int), rest) = some (n, rest)
    congr 2
    omega
  · rw [if_neg hneg]
    obtain ⟨c, cs, heq, hdig⟩ := natDumpF_spec (n.natAbs + 1) n.natAbs (by omega)
    have heq2 : natDump n.natAbs = c :: cs := heq
    rw [heq2]
    simp only [List.cons_append]
    rw [pNum]
    rw [if_neg (digit_ne_chars (hdig c (List.mem_cons_self c cs))).1]
    rw [show c :: (cs ++ rest) = (c :: cs) ++ rest from rfl, ← heq2]
    rw [pDigits_natDump hrest]
    show some (((n.natAbs : Nat) : Int), rest) = some (n, rest)
    congr 2
    omega

/-! String literal escape round trip -/

theorem hexVal_hexDigit : ∀ v : Nat, v < 16 → hexVal (hexDigit v) = some v := by decide

theorem pStrCharsF_escape : ∀ (s : List Char) (fuel : Nat) (rest : List Char),
    (escString s).length < fuel →
    pStrCharsF fuel (escString s ++ '"' :: rest) = some (s, rest) := by
  intro s
  induction s with
  | nil =>
    intro fuel rest hf
    cases fuel with
    | zero => exact absurd hf (Nat.not_lt_zero _)
    | succ f =>
      simp only [escString, List.nil_append]
      simp [pStrCharsF]
  | cons c s2 ih =>
    intro fuel rest hf
    simp only [escString] at hf ⊢
    by_cases h1 : c = '"'
    · subst h1
      cases fuel with
      | zero => exact absurd hf (Nat.not_lt_zero _)
      | succ f =>
        simp only [escChar, List.length_append] at hf
        have hrec := ih f rest (by simp at hf ⊢; omega)
        simp [pStrCharsF, escChar, hrec]
    · by_cases h2 : c = '\\'
      · subst h2
        cases fuel with
        | zero => exact absurd hf (Nat.not_lt_zero _)
        | succ f =>
          simp only [escChar, List.length_append] at hf
          have hrec := ih f rest (by simp at hf ⊢; omega)
          simp [pStrCharsF, escChar, hrec]
      · by_cases h3 : c = '\n'
        · subst h3
          cases fuel with
          | zero => exact absurd hf (Nat.not_lt_zero _)
          | succ f =>
            simp only [escChar, List.length_append] at hf
            have hrec := ih f rest (by simp at hf ⊢; omega)
            simp [pStrCharsF, escChar, hrec]
        · by_cases h4 : c = '\t'
          · subst h4
            cases fuel with
            | zero => exact absurd hf (Nat.not_lt_zero _)
            | succ f =>
              simp only [escChar, List.length_append] at hf
              have hrec := ih f rest (by simp at hf ⊢; omega)
              simp [pStrCharsF, escChar, hrec]
          · by_cases h5 : c = '\x0d'
            · subst h5
              cases fuel with
              | zero => exact absurd hf (Nat.not_lt_zero _)
              | succ f =>
                simp only [escChar, List.length_append] at hf
                have hrec := ih f rest (by simp at hf ⊢; omega)
                simp [pStrCharsF, escChar, hrec]
            · by_cases h6 : c = '\x08'
              · subst h6
                cases fuel with
                | zero => exact absurd hf (Nat.not_lt_zero _)
                | succ f =>
                  simp only [escChar, List.length_append] at hf
                  have hrec := ih f rest (by simp at hf ⊢; omega)
                  simp [pStrCharsF, escChar, hrec]
              · by_cases h7 : c = '\x0c'
                · subst h7
                  cases fuel with
                  | zero => exact absurd hf (Nat.not_lt_zero _)
                  | succ f =>
                    simp only [escChar, List.length_append] at hf
                    have hrec := ih f rest (by simp at hf ⊢; omega)
                    simp [pStrCharsF, escChar, hrec]
                · by_cases h8 : c.toNat < 32
                  · have hesc : escChar c = ['\\', 'u', '0', '0',
                        hexDigit (c.toNat / 16), hexDigit (c.toNat % 16)] := by
                      unfold escChar
                      rw [if_neg h1, if_neg h2, if_neg h3, if_neg h4, if_neg h5,
                        if_neg h6, if_neg h7, if_pos h8]
                    rw [hesc] at hf ⊢
                    cases fuel with
                    | zero => exact absurd hf (Nat.not_lt_zero _)
                    | succ f =>
                      simp only [List.length_append] at hf
                      have hrec := ih f rest (by simp at hf ⊢; omega)
                      have h016 : hexVal '0' = some 0 := by decide
                      have hx1 : hexVal (hexDigit (c.toNat / 16)) = some (c.toNat / 16) :=
                        hexVal_hexDigit _ (by omega)
                      have hx2 : hexVal (hexDigit (c.toNat % 16)) = some (c.toNat % 16) :=
                        hexVal_hexDigit _ (by omega)
                      simp only [List.cons_append, List.nil_append]
                      simp [pStrCharsF, h016, hx1, hx2, hrec]
                      have harith : c.toNat / 16 * 16 + c.toNat % 16 = c.toNat := by omega
                      rw [harith, Char.ofNat_toNat]
                  · have hesc : escChar c = [c] := by
                      unfold escChar
                      rw [if_neg h1, if_neg h2, if_neg h3, if_neg h4, if_neg h5,
                        if_neg h6, if_neg h7, if_neg h8]
                    rw [hesc] at hf ⊢
                    cases fuel with
                    | zero => exact absurd hf (Nat.not_lt_zero _)
                    | succ f =>
                      simp only [List.length_append] at hf
                      have hrec := ih f rest (by simp at hf ⊢; omega)
                      simp only [List.cons_append, List.nil_append]
                      simp [pStrCharsF, h1, h2, hrec]

theorem pStrChars_escape (s rest : List Char) :
    pStrChars (escString s ++ '"' :: rest) = some (s, rest) := by
  unfold pStrChars
  apply pStrCharsF_escape
  simp only [List.length_append, List.length_cons]
  omega

theorem notDigitStart_cons {c : Char} (h : isDigitChar c = false) (l : List Char) :
    notDigitStart (c :: l) := by
  intro d hd
  simp only [List.head?_cons, Option.some.injEq] at hd
  subst hd
  exact h

theorem notDigitStart_nil : notDigitStart [] := by
  intro d hd
  simp at hd

theorem digit_ne_brackets {c : Char} (h : isDigitChar c = true) :
    c ≠ ']' ∧ c ≠ '\x7d' := by
  constructor <;> (intro he; subst he; exact absurd h (by decide))

theorem dump_head (v : Json) :
    ∃ c cs, dumpChars v = c :: cs ∧ c ≠ ']' ∧ c ≠ '\x7d' := by
  cases v with
  | null => exact ⟨'n', _, rfl, by decide, by decide⟩
  | bool b => cases b with
    | true => exact ⟨'t', _, rfl, by decide, by decide⟩
    | false => exact ⟨'f', _, rfl, by decide, by decide⟩
  | num n =>
    show ∃ c cs, intDump n = c :: cs ∧ _
    unfold intDump
    by_cases hneg : n < 0
    · rw [if_pos hneg]
      exact ⟨'-', _, rfl, by decide, by decide⟩
    · rw [if_neg hneg]
      obtain ⟨c, cs, heq, hdig⟩ := natDumpF_spec (n.natAbs + 1) n.natAbs (by omega)
      refine ⟨c, cs, heq, digit_ne_brackets (hdig c (List.mem_cons_self c cs))⟩
  | str s => exact ⟨'"', _, rfl, by decide, by decide⟩
  | arr xs => exact ⟨'[', _, rfl, by decide, by decide⟩
  | obj kvs => exact ⟨'\x7b', _, rfl, by decide, by decide⟩


theorem parse_dump_all : ∀ N : Nat,
    (∀ (v : Json) (fuel : Nat) (rest : List Char), jfuel v ≤ N → jfuel v ≤ fuel →
      notDigitStart rest → pVal fuel (dumpChars v ++ rest) = some (v, rest))
    ∧ (∀ (x : Json) (xs : List Json) (fuel : Nat) (rest : List Char),
        jfuelItems (x :: xs) ≤ N → jfuelItems (x :: xs) ≤ fuel →
        pItems fuel (dumpItems (x :: xs) ++ ']' :: rest) = some (x :: xs, rest))
    ∧ (∀ (kv : String × Json) (kvs : List (String × Json)) (fuel : Nat) (rest : List Char),
        jfuelMembers (kv :: kvs) ≤ N → jfuelMembers (kv :: kvs) ≤ fuel →
        pMembers fuel (dumpMembers (kv :: kvs) ++ '\x7d' :: rest) = some (kv :: kvs, rest)) := by
  intro N
  induction N using Nat.strong_induction_on with
  | _ N ih =>
    refine ⟨?_, ?_, ?_⟩
    · -- values
      intro v fuel rest hN hfuel hrest
      cases v with
      | null =>
        cases fuel with
        | zero => exact absurd hfuel (by simp [jfuel])
        | succ f => simp [dumpChars, pVal]
      | bool b =>
        cases fuel with
        | zero => exact absurd hfuel (by simp [jfuel])
        | succ f => cases b <;> simp [dumpChars, pVal]
      | num n =>
        cases fuel with
        | zero => exact absurd hfuel (by simp [jfuel])
        | succ f =>
          show pVal (f + 1) (intDump n ++ rest) = some (.num n, rest)
          unfold intDump
          by_cases hneg : n < 0
          · rw [if_pos hneg]
            simp only [List.cons_append]
            rw [pVal]
            rw [if_neg (by decide), if_neg (by decide), if_neg (by decide),
              if_neg (by decide), if_neg (by decide), if_neg (by decide)]
            have hp : pNum ('-' :: (natDump n.natAbs ++ rest)) = some (n, rest) := by
              have := @pNum_intDump n rest hrest
              unfold intDump at this
              rw [if_pos hneg] at this
              simpa using this
            rw [hp]
            rfl
          · rw [if_neg hneg]
            obtain ⟨c, cs, heq, hdig⟩ := natDumpF_spec (n.natAbs + 1) n.natAbs (by omega)
            have heq2 : natDump n.natAbs = c :: cs := heq
            rw [heq2]
            simp only [List.cons_append]
            have hnd := digit_ne_chars (hdig c (List.mem_cons_self c cs))
            rw [pVal]
            rw [if_neg hnd.2.1, if_neg hnd.2.2.1, if_neg hnd.2.2.2.1,
              if_neg hnd.2.2.2.2.1, if_neg hnd.2.2.2.2.2.1, if_neg hnd.2.2.2.2.2.2]
            have hp : pNum (c :: (cs ++ rest)) = some (n, rest) := by
              have := @pNum_intDump n rest hrest
              unfold intDump at this
              rw [if_neg hneg, heq2] at this
              simpa using this
            rw [hp]
            rfl
      | str s =>
        cases fuel with
        | zero => exact absurd hfuel (by simp [jfuel])
        | succ f =>
          show pVal (f + 1) (('"' :: (escString s.toList ++ ['"'])) ++ rest)
            = some (.str s, rest)
          simp only [List.cons_append, List.append_assoc, List.cons_append,
            List.nil_append]
          rw [pVal]
          rw [if_neg (by decide), if_neg (by decide), if_neg (by decide), if_pos rfl]
          rw [pStrChars_escape]
          rfl
      | arr xs =>
        cases xs with
        | nil =>
          cases fuel with
          | zero => exact absurd hfuel (by simp [jfuel, jfuelItems])
          | succ f => simp [dumpChars, dumpItems, pVal]
        | cons x xs2 =>
          cases fuel with
          | zero =>
            exact absurd hfuel (by simp [jfuel, jfuelItems])
          | succ f =>
            show pVal (f + 1) (('[' :: (dumpItems (x :: xs2) ++ [']'])) ++ rest)
              = some (.arr (x :: xs2), rest)
            simp only [List.cons_append, List.append_assoc, List.cons_append,
              List.nil_append]
            rw [pVal]
            rw [if_neg (by decide), if_neg (by decide), if_neg (by decide),
              if_neg (by decide), if_pos rfl]
            obtain ⟨T, hT⟩ : ∃ T, dumpItems (x :: xs2) = dumpChars x ++ T := by
              cases xs2 with
              | nil => exact ⟨[], by simp [dumpItems]⟩
              | cons y ys => exact ⟨',' :: dumpItems (y :: ys), rfl⟩
            obtain ⟨c, cs, hceq, hcne, _⟩ := dump_head x
            have hhead : ((dumpItems (x :: xs2) ++ ']' :: rest).head? = some c) := by
              rw [hT, hceq]
              simp
            rw [if_neg (by rw [hhead]; simp [hcne])]
            have hNgt : jfuelItems (x :: xs2) < N := by
              have : jfuel (.arr (x :: xs2)) = 1 + jfuelItems (x :: xs2) := rfl
              omega
            have hfle : jfuelItems (x :: xs2) ≤ f := by
              have : jfuel (.arr (x :: xs2)) = 1 + jfuelItems (x :: xs2) := rfl
              omega
            rw [(ih (jfuelItems (x :: xs2)) hNgt).2.1 x xs2 f rest (le_refl _) hfle]
            rfl
      | obj kvs =>
        cases kvs with
        | nil =>
          cases fuel with
          | zero => exact absurd hfuel (by simp [jfuel, jfuelMembers])
          | succ f => simp [dumpChars, dumpMembers, pVal]
        | cons kv kvs2 =>
          cases fuel with
          | zero =>
            exact absurd hfuel (by simp [jfuel, jfuelMembers])
          | succ f =>
            show pVal (f + 1) (('\x7b' :: (dumpMembers (kv :: kvs2) ++ ['\x7d'])) ++ rest)
              = some (.obj (kv :: kvs2), rest)
            simp only [List.cons_append, List.append_assoc, List.cons_append,
              List.nil_append]
            rw [pVal]
            rw [if_neg (by decide), if_neg (by decide), if_neg (by decide),
              if_neg (by decide), if_neg (by decide), if_pos rfl]
            obtain ⟨T, hT⟩ : ∃ T, dumpMembers (kv :: kvs2)
                = '"' :: (escString kv.1.toList ++ '"' :: ':' :: dumpChars kv.2) ++ T := by
              cases kvs2 with
              | nil => exact ⟨[], by simp [dumpMembers]⟩
              | cons kv2 kvs3 => exact ⟨',' :: dumpMembers (kv2 :: kvs3), rfl⟩
            have hhead : ((dumpMembers (kv :: kvs2) ++ '\x7d' :: rest).head? = some '"') := by
              rw [hT]
              simp
            rw [if_neg (by rw [hhead]; simp)]
            have hNgt : jfuelMembers (kv :: kvs2) < N := by
              have : jfuel (.obj (kv :: kvs2)) = 1 + jfuelMembers (kv :: kvs2) := rfl
              omega
            have hfle : jfuelMembers (kv :: kvs2) ≤ f := by
              have : jfuel (.obj (kv :: kvs2)) = 1 + jfuelMembers (kv :: kvs2) := rfl
              omega
            rw [(ih (jfuelMembers (kv :: kvs2)) hNgt).2.2 kv kvs2 f rest (le_refl _) hfle]
            rfl
    · -- items
      intro x xs fuel rest hN hfuel
      cases fuel with
      | zero => exact absurd hfuel (by simp [jfuelItems])
      | succ f =>
        have hxN : jfuel x < N := by
          have : jfuelItems (x :: xs) = 1 + jfuel x + jfuelItems xs := rfl
          omega
        have hxf : jfuel x ≤ f := by
          have : jfuelItems (x :: xs) = 1 + jfuel x + jfuelItems xs := rfl
          omega
        cases xs with
        | nil =>
          have hl : dumpItems [x] ++ ']' :: rest = dumpChars x ++ ']' :: rest := by
            simp [dumpItems]
          rw [hl, pItems]
          rw [(ih (jfuel x) hxN).1 x f (']' :: rest) (le_refl _) hxf
            (notDigitStart_cons (by decide) _)]
          rfl
        | cons y ys =>
          have hl : dumpItems (x :: y :: ys) ++ ']' :: rest
              = dumpChars x ++ ',' :: (dumpItems (y :: ys) ++ ']' :: rest) := by
            simp [dumpItems]
          rw [hl, pItems]
          rw [(ih (jfuel x) hxN).1 x f (',' :: (dumpItems (y :: ys) ++ ']' :: rest))
            (le_refl _) hxf (notDigitStart_cons (by decide) _)]
          have hyN : jfuelItems (y :: ys) < N := by
            have h1 : jfuelItems (x :: y :: ys) = 1 + jfuel x + jfuelItems (y :: ys) := rfl
            omega
          have hyf : jfuelItems (y :: ys) ≤ f := by
            have h1 : jfuelItems (x :: y :: ys) = 1 + jfuel x + jfuelItems (y :: ys) := rfl
            omega
          simp only [Option.bind_eq_bind, Option.some_bind]
          rw [(ih (jfuelItems (y :: ys)) hyN).2.1 y ys f rest (le_refl _) hyf]
          rfl
    · -- members
      intro kv kvs fuel rest hN hfuel
      cases fuel with
      | zero => exact absurd hfuel (by simp [jfuelMembers])
      | succ f =>
        have hvN : jfuel kv.2 < N := by
          have : jfuelMembers (kv :: kvs) = 1 + jfuel kv.2 + jfuelMembers kvs := rfl
          omega
        have hvf : jfuel kv.2 ≤ f := by
          have : jfuelMembers (kv :: kvs) = 1 + jfuel kv.2 + jfuelMembers kvs := rfl
          omega
        cases kvs with
        | nil =>
          have hl : dumpMembers [kv] ++ '\x7d' :: rest
              = '"' :: (escString kv.1.toList ++ '"' ::
                  (':' :: (dumpChars kv.2 ++ '\x7d' :: rest))) := by
            simp [dumpMembers]
          rw [hl, pMembers]
          rw [pStrChars_escape kv.1.toList (':' :: (dumpChars kv.2 ++ '\x7d' :: rest))]
          simp only [Option.bind_eq_bind, Option.some_bind]
          rw [(ih (jfuel kv.2) hvN).1 kv.2 f ('\x7d' :: rest) (le_refl _) hvf
            (notDigitStart_cons (by decide) _)]
          rfl
        | cons kv2 kvs3 =>
          have hl : dumpMembers (kv :: kv2 :: kvs3) ++ '\x7d' :: rest
              = '"' :: (escString kv.1.toList ++ '"' ::
                  (':' :: (dumpChars kv.2 ++
                    ',' :: (dumpMembers (kv2 :: kvs3) ++ '\x7d' :: rest)))) := by
            simp [dumpMembers]
          rw [hl, pMembers]
          rw [pStrChars_escape kv.1.toList
            (':' :: (dumpChars kv.2 ++ ',' :: (dumpMembers (kv2 :: kvs3) ++ '\x7d' :: rest)))]
          simp only [Option.bind_eq_bind, Option.some_bind]
          rw [(ih (jfuel kv.2) hvN).1 kv.2 f
            (',' :: (dumpMembers (kv2 :: kvs3) ++ '\x7d' :: rest)) (le_refl _) hvf
            (notDigitStart_cons (by decide) _)]
          simp only [Option.bind_eq_bind, Option.some_bind]
          have h2N : jfuelMembers (kv2 :: kvs3) < N := by
            have : jfuelMembers (kv :: kv2 :: kvs3)
                = 1 + jfuel kv.2 + jfuelMembers (kv2 :: kvs3) := rfl
            omega
          have h2f : jfuelMembers (kv2 :: kvs3) ≤ f := by
            have : jfuelMembers (kv :: kv2 :: kvs3)
                = 1 + jfuel kv.2 + jfuelMembers (kv2 :: kvs3) := rfl
            omega
          rw [(ih (jfuelMembers (kv2 :: kvs3)) h2N).2.2 kv2 kvs3 f rest (le_refl _) h2f]
          rfl

theorem jfuel_le_len : ∀ N : Nat,
    (∀ v : Json, jfuel v ≤ N → jfuel v ≤ (dumpChars v).length)
    ∧ (∀ (x : Json) (xs : List Json), jfuelItems (x :: xs) ≤ N →
        jfuelItems (x :: xs) ≤ (dumpItems (x :: xs)).length + 1)
    ∧ (∀ (kv : String × Json) (kvs : List (String × Json)), jfuelMembers (kv :: kvs) ≤ N →
        jfuelMembers (kv :: kvs) ≤ (dumpMembers (kv :: kvs)).length + 1) := by
  intro N
  induction N using Nat.strong_induction_on with
  | _ N ih =>
    refine ⟨?_, ?_, ?_⟩
    · intro v hN
      cases v with
      | null => simp [jfuel, dumpChars]
      | bool b => cases b <;> simp [jfuel, dumpChars]
      | num n =>
        show jfuel (.num n) ≤ (intDump n).length
        unfold intDump
        by_cases hneg : n < 0
        · rw [if_pos hneg]
          simp [jfuel]
        · rw [if_neg hneg]
          obtain ⟨c, cs, heq, _⟩ := natDumpF_spec (n.natAbs + 1) n.natAbs (by omega)
          have heq2 : natDump n.natAbs = c :: cs := heq
          rw [heq2]
          simp [jfuel]
      | str s => simp [jfuel, dumpChars]
      | arr xs =>
        cases xs with
        | nil => simp [jfuel, jfuelItems, dumpChars, dumpItems]
        | cons x xs2 =>
          have hN2 : jfuelItems (x :: xs2) < N := by
            have : jfuel (.arr (x :: xs2)) = 1 + jfuelItems (x :: xs2) := rfl
            omega
          have hrec := ((ih (jfuelItems (x :: xs2)) hN2).2.1 x xs2 (le_refl _))
          show 1 + jfuelItems (x :: xs2) ≤ ('[' :: (dumpItems (x :: xs2) ++ [']'])).length
          simp only [List.length_cons, List.length_append, List.length_singleton]
          omega
      | obj kvs =>
        cases kvs with
        | nil => simp [jfuel, jfuelMembers, dumpChars, dumpMembers]
        | cons kv kvs2 =>
          have hN2 : jfuelMembers (kv :: kvs2) < N := by
            have : jfuel (.obj (kv :: kvs2)) = 1 + jfuelMembers (kv :: kvs2) := rfl
            omega
          have hrec := ((ih (jfuelMembers (kv :: kvs2)) hN2).2.2 kv kvs2 (le_refl _))
          show 1 + jfuelMembers (kv :: kvs2)
            ≤ ('\x7b' :: (dumpMembers (kv :: kvs2) ++ ['\x7d'])).length
          simp only [List.length_cons, List.length_append, List.length_singleton]
          omega
    · intro x xs hN
      have hxN : jfuel x < N := by
        have : jfuelItems (x :: xs) = 1 + jfuel x + jfuelItems xs := rfl
        omega
      have hx := (ih (jfuel x) hxN).1 x (le_refl _)
      cases xs with
      | nil =>
        show 1 + jfuel x + jfuelItems [] ≤ (dumpItems [x]).length + 1
        simp only [jfuelItems, dumpItems]
        omega
      | cons y ys =>
        have hyN : jfuelItems (y :: ys) < N := by
          have : jfuelItems (x :: y :: ys) = 1 + jfuel x + jfuelItems (y :: ys) := rfl
          omega
        have hy := (ih (jfuelItems (y :: ys)) hyN).2.1 y ys (le_refl _)
        show 1 + jfuel x + jfuelItems (y :: ys) ≤ (dumpItems (x :: y :: ys)).length + 1
        have : dumpItems (x :: y :: ys) = dumpChars x ++ ',' :: dumpItems (y :: ys) := rfl
        rw [this]
        simp only [List.length_append, List.length_cons]
        omega
    · intro kv kvs hN
      have hvN : jfuel kv.2 < N := by
        have : jfuelMembers (kv :: kvs) = 1 + jfuel kv.2 + jfuelMembers kvs := rfl
        omega
      have hv := (ih (jfuel kv.2) hvN).1 kv.2 (le_refl _)
      cases kvs with
      | nil =>
        show 1 + jfuel kv.2 + jfuelMembers [] ≤ (dumpMembers [kv]).length + 1
        simp only [jfuelMembers, dumpMembers]
        simp only [List.length_cons, List.length_append]
        omega
      | cons kv2 kvs3 =>
        have h2N : jfuelMembers (kv2 :: kvs3) < N := by
          have : jfuelMembers (kv :: kv2 :: kvs3)
              = 1 + jfuel kv.2 + jfuelMembers (kv2 :: kvs3) := rfl
          omega
        have h2 := (ih (jfuelMembers (kv2 :: kvs3)) h2N).2.2 kv2 kvs3 (le_refl _)
        show 1 + jfuel kv.2 + jfuelMembers (kv2 :: kvs3)
          ≤ (dumpMembers (kv :: kv2 :: kvs3)).length + 1
        have : dumpMembers (kv :: kv2 :: kvs3)
            = ('"' :: (escString kv.1.toList ++ '"' :: ':' :: dumpChars kv.2)) ++
                ',' :: dumpMembers (kv2 :: kvs3) := rfl
        rw [this]
        simp only [List.length_append, List.length_cons]
        omega

theorem jsonParse_dump (v : Json) : jsonParse (jsonDump v) = some v := by
  unfold jsonParse
  have htl : (jsonDump v).toList = dumpChars v := rfl
  have hlen : (jsonDump v).length = (dumpChars v).length := rfl
  rw [htl, hlen]
  have hfuel : jfuel v ≤ (dumpChars v).length + 1 :=
    le_trans ((jfuel_le_len (jfuel v)).1 v (le_refl _)) (by omega)
  have := (parse_dump_all (jfuel v)).1 v ((dumpChars v).length + 1) [] (le_refl _)
    hfuel notDigitStart_nil
  rw [List.append_nil] at this
  rw [this]

theorem string_toList_append (a b : String) : (a ++ b).toList = a.toList ++ b.toList :=
  String.data_append a b

theorem unsign_sign_core (secret : List Nat) (v : Json) (hwf : wellFormedPayload v) :
    unsign_wa_token secret (b64u (asciiBytes (jsonDump v)) ++ "." ++
      b64u (hmacSha256 secret (asciiBytes (jsonDump v)))) = some v := by
  have h : ∀ c ∈ (jsonDump v).toList, c.toNat < 128 := by
    intro c hc
    exact of_decide_eq_true (List.all_eq_true.mp hwf c hc)
  unfold unsign_wa_token
  have htl : (b64u (asciiBytes (jsonDump v)) ++ "." ++
      b64u (hmacSha256 secret (asciiBytes (jsonDump v)))).toList
      = b64Core (asciiBytes (jsonDump v)) ++ '.' ::
          b64Core (hmacSha256 secret (asciiBytes (jsonDump v))) := by
    rw [string_toList_append, string_toList_append, List.append_assoc]
    rfl
  rw [htl]
  rw [splitOnce_append (b64Core_no_dot _)]
  have hdec1 : b64uDec (String.mk (b64Core (asciiBytes (jsonDump v))))
      = some (asciiBytes (jsonDump v)) :=
    b64_roundtrip _ (asciiBytes_lt h)
  have hdec2 : b64uDec (String.mk (b64Core (hmacSha256 secret (asciiBytes (jsonDump v)))))
      = some (hmacSha256 secret (asciiBytes (jsonDump v))) :=
    b64_roundtrip _ (hmacSha256_lt _ _)
  simp only [hdec1, hdec2, if_true]
  rw [asciiDecode_asciiBytes h]
  exact jsonParse_dump v

/-- C6: over the embedded token machinery, unsigning a signed payload
recovers it exactly (for payloads whose serialized form is ASCII, the
domain of the byte-level model), the deep-link verifier likewise recovers
the payload embedded by the deep-link builder, and a token whose embedded
signature differs from the recomputed MAC — or that has no separator at
all — verifies to none rather than failing. -/
theorem token_roundtrip_spec :
    (∀ (secret : List Nat) (v : Json), wellFormedPayload v →
      unsign_wa_token secret (sign_wa_token secret v) = some v)
    ∧ (∀ (secret : List Nat) (cid : String) (ts : Int) (extra : List (String × Json)),
        wellFormedPayload (.obj (deeplinkPayload cid ts extra)) →
        verify_deeplink_token secret (make_deeplink_token secret cid ts extra)
          = some (.obj (deeplinkPayload cid ts extra)))
    ∧ (∀ (secret raw sig : List Nat), (∀ b ∈ raw, b < 256) → (∀ b ∈ sig, b < 256) →
        sig ≠ hmacSha256 secret raw →
        unsign_wa_token secret (b64u raw ++ "." ++ b64u sig) = none)
    ∧ (∀ (secret : List Nat) (tok : String), '.' ∉ tok.toList →
        unsign_wa_token secret tok = none) := by
  refine ⟨?_, ?_, ?_, ?_⟩
  · intro secret v h
    exact unsign_sign_core secret v h
  · intro secret cid ts extra h
    exact unsign_sign_core secret (.obj (deeplinkPayload cid ts extra)) h
  · intro secret raw sig hraw hsig hne
    unfold unsign_wa_token
    have htl : (b64u raw ++ "." ++ b64u sig).toList
        = b64Core raw ++ '.' :: b64Core sig := by
      rw [string_toList_append, string_toList_append, List.append_assoc]
      rfl
    rw [htl]
    rw [splitOnce_append (b64Core_no_dot _)]
    have hr : b64uDec (String.mk (b64Core raw)) = some raw := b64_roundtrip raw hraw
    have hs : b64uDec (String.mk (b64Core sig)) = some sig := b64_roundtrip sig hsig
    simp only [hr, hs]
    rw [if_neg hne]
  · intro secret tok hdot
    unfold unsign_wa_token
    rw [splitOnce_none hdot]


set_option maxRecDepth 40000 in
theorem token_roundtrip_spec_witness :
    unsign_wa_token (asciiBytes "sec") (sign_wa_token (asciiBytes "sec") c6pay) = some c6pay
    ∧ verify_deeplink_token (asciiBytes "dlk")
        (make_deeplink_token (asciiBytes "dlk") "camp" 1700000000 [("x", .num 1)])
        = some (.obj (deeplinkPayload "camp" 1700000000 [("x", .num 1)]))
    ∧ unsign_wa_token (asciiBytes "sec") (b64u [1, 2, 3] ++ "." ++ b64u [0]) = none
    ∧ unsign_wa_token (asciiBytes "sec") "notoken" = none :=
  ⟨token_roundtrip_spec.1 (asciiBytes "sec") c6pay rfl,
   token_roundtrip_spec.2.1 (asciiBytes "dlk") "camp" 1700000000 [("x", .num 1)] rfl,
   token_roundtrip_spec.2.2.1 (asciiBytes "sec") [1, 2, 3] [0] (by decide) (by decide)
     (by intro h; exact absurd (congrArg List.length h) (by decide)),
   token_roundtrip_spec.2.2.2 (asciiBytes "sec") "notoken" (by decide)⟩

theorem wa_redirect_endpoints_spec :
    (∀ (secret : List Nat) (portal t : String), unsign_wa_token secret t = none →
      wa_redirect_webhook secret portal t = ⟨400, .plain "Bad token"⟩)
    ∧ (∀ (secret : List Nat) (portal t : String) (kvs : List (String × Json))
        (waRaw text : String),
        unsign_wa_token secret t = some (.obj kvs) →
        pyStrField kvs "wa" = some waRaw → pyStrField kvs "text" = some text →
        (wa_redirect_webhook secret portal t).status = 302 ∧
        ∃ url, (wa_redirect_webhook secret portal t).body = RespBody.redirectTo url)
    ∧ (∀ (secret portal t sig : String), secret ≠ "" →
        hexStr (hmacSha256 (asciiBytes secret) (asciiBytes t)) ≠ sig →
        wa_redirect_wapy secret portal t sig = ⟨403, .jsonErr "bad signature"⟩)
    ∧ (∀ (portal t sig : String), b64uDec t = none →
        wa_redirect_wapy "" portal t sig = ⟨400, .jsonErr "bad token"⟩)
    ∧ (∀ (portal t sig : String) (raw : List Nat) (s : String)
        (kvs : List (String × Json)) (waRaw text : String),
        b64uDec t = some raw → asciiDecode raw = some s → jsonParse s = some (.obj kvs) →
        pyStrField kvs "wa" = some waRaw → pyStrField kvs "text" = some text →
        (wa_redirect_wapy "" portal t sig).status = 200 ∧
        ∃ target, (wa_redirect_wapy "" portal t sig).body
          = RespBody.htmlRedirectPage target) := by
  refine ⟨?_, ?_, ?_, ?_, ?_⟩
  · intro secret portal t h
    unfold wa_redirect_webhook
    rw [h]
  · intro secret portal t kvs waRaw text h1 h2 h3
    have hres : wa_redirect_webhook secret portal t
        = ⟨302, .redirectTo ("https://wa.me/" ++
            (if digitsOnly waRaw = "" then portal else digitsOnly waRaw) ++
            "?text=" ++ requoteUri text)⟩ := by
      unfold wa_redirect_webhook
      rw [h1]
      simp only [h2, h3]
    rw [hres]
    exact ⟨rfl, _, rfl⟩
  · intro secret portal t sig hsec hne
    unfold wa_redirect_wapy
    rw [if_pos (by simp [hsec, hne])]
  · intro portal t sig hb
    unfold wa_redirect_wapy
    rw [if_neg (by simp)]
    rw [hb]
  · intro portal t sig raw s kvs waRaw text hb ha hj h2 h3
    have hres : wa_redirect_wapy "" portal t sig
        = ⟨200, .htmlRedirectPage ("https://wa.me/" ++
            (if digitsOnly waRaw = "" then portal else digitsOnly waRaw) ++
            "?text=" ++ pyQuote text)⟩ := by
      unfold wa_redirect_wapy
      rw [if_neg (by simp)]
      rw [hb]
      simp only [ha, hj, h2, h3]
    rw [hres]
    exact ⟨rfl, _, rfl⟩

set_option maxRecDepth 40000 in
theorem wa_redirect_endpoints_spec_witness :
    wa_redirect_webhook (asciiBytes "sec") "96597273411" "garbage"
      = ⟨400, .plain "Bad token"⟩
    ∧ ((wa_redirect_webhook (asciiBytes "sec") "96597273411"
          (sign_wa_token (asciiBytes "sec") c6pay)).status = 302 ∧
        ∃ url, (wa_redirect_webhook (asciiBytes "sec") "96597273411"
          (sign_wa_token (asciiBytes "sec") c6pay)).body = RespBody.redirectTo url)
    ∧ wa_redirect_wapy "k" "96597273411" "QUJD" "wrongsig"
      = ⟨403, .jsonErr "bad signature"⟩ :=
  ⟨wa_redirect_endpoints_spec.1 (asciiBytes "sec") "96597273411" "garbage" rfl,
   wa_redirect_endpoints_spec.2.1 (asciiBytes "sec") "96597273411"
     (sign_wa_token (asciiBytes "sec") c6pay)
     [("user_id", .num 42), ("wa", .str "96512345"), ("text", .str "Hello")]
     "96512345" "Hello" rfl rfl rfl,
   wa_redirect_endpoints_spec.2.2.1 "k" "96597273411" "QUJD" "wrongsig" (by decide)
     (by decide)⟩

theorem wa_redirect_counterexample :
    wa_redirect_wapy "" "96597273411"
        (b64u (asciiBytes (jsonDump (.obj [("wa", .str "123"), ("text", .str "x")])))) ""
      = ⟨200, .htmlRedirectPage "https://wa.me/123?text=x"⟩
    ∧ (200 : Nat) ≠ 302 := by
  exact ⟨by decide, by decide⟩

end Portal
